import Mathlib

set_option linter.unusedVariables false

/-!
# Verification of the FIBERS evolutionary binning core

Shallow embedding of `src/skfibers/methods/algorithms.py` (the FIBERS
genetic-algorithm search over feature bins) and proofs of the specified
properties.

Modelling conventions:
* Python floats are modelled as exact rationals (`ℚ`).  `round` is Python's
  banker's rounding (half to even), `int` truncates toward zero.
* The global state of Python's `random` module and of `numpy.random` are
  modelled as two explicit pseudo-random generator states (`PyRand`,
  `NpRand`) threaded through every stochastic call.  A linear-congruential
  step stands in for the Mersenne twister: the verified properties depend
  only on the seeding/threading discipline, never on the distribution of
  the draws.
* Fallible operations (Python exceptions: `IndexError` from out-of-range
  indexing, `ValueError` from `random.sample` with an oversized sample or
  from `numpy.random.randint` with an empty range, `KeyError` from a
  missing dataframe column, `StatisticsError` from `statistics.mean` of an
  empty list) are modelled with `Option`, `none` meaning the exception.
* `pandas` dataframes are modelled as an ordered list of named rational
  columns together with a row count; column arithmetic is elementwise.
-/

namespace Fibers2

/- The core rational-number operations are marked irreducible, which
blocks `decide`-style evaluation of the concrete program runs below; the
kernel is unaffected by reducibility hints, so making them reducible
again is sound and lets ground facts about the embedded code evaluate. -/
set_option allowUnsafeReducibility true

attribute [semireducible] Rat.mul Rat.inv Rat.add Rat.sub Rat.div

/-- Python's built-in `round` on an exact rational: round half to even. -/
def pyRound (q : ℚ) : ℤ :=
  if q - ⌊q⌋ < 1/2 then ⌊q⌋
  else if 1/2 < q - ⌊q⌋ then ⌊q⌋ + 1
  else if ⌊q⌋ % 2 = 0 then ⌊q⌋ else ⌊q⌋ + 1

/-- Python's `int()` applied to a float: truncation toward zero. -/
def pyInt (q : ℚ) : ℤ :=
  if 0 ≤ q then ⌊q⌋ else -⌊-q⌋

/-! ## Pseudo-random generator model

`PyRand` models the global state of Python's `random` module, `NpRand` the
global state of `numpy.random`.  `random.seed` / `np.random.seed` replace
the whole state; every draw advances the state. -/

/-- One linear-congruential step (stand-in for the Mersenne twister). -/
def lcgNext (s : ℕ) : ℕ := (1103515245 * s + 12345) % 2147483648

/-- Global state of Python's `random` module. -/
structure PyRand where
  s : ℕ
deriving DecidableEq, Repr

/-- Global state of `numpy.random`. -/
structure NpRand where
  s : ℕ
deriving DecidableEq, Repr

/-- `random.seed(n)`: the whole generator state is replaced. -/
def pySeed (n : ℕ) : PyRand := ⟨lcgNext (n % 2147483648)⟩

/-- Draw one raw value from the Python generator. -/
def pyNext (r : PyRand) : ℕ × PyRand :=
  let s := lcgNext r.s
  (s, ⟨s⟩)

/-- `random.random()`: a rational in `[0, 1)`. -/
def pyRandFloat (r : PyRand) : ℚ × PyRand :=
  let (v, r1) := pyNext r
  ((v : ℚ) / 2147483648, r1)

/-- `np.random.seed(n)`. -/
def npSeed (n : ℕ) : NpRand := ⟨lcgNext ((n + 77) % 2147483648)⟩

/-- Draw one raw value from the numpy generator. -/
def npNext (r : NpRand) : ℕ × NpRand :=
  let s := lcgNext r.s
  (s, ⟨s⟩)

/-- `np.random.randint(bound)`: `none` models the `ValueError` raised when
the range is empty (`bound = 0`). -/
def npRandInt (bound : ℕ) (r : NpRand) : Option (ℕ × NpRand) :=
  if bound = 0 then none
  else
    let (v, r1) := npNext r
    some (v % bound, r1)

/-- Draw `n` numpy values below `bound`, in order. -/
def npRandIntsGo (bound : ℕ) : ℕ → NpRand → List ℕ × NpRand
  | 0, r0 => ([], r0)
  | k + 1, r0 =>
    let (v, r1) := npNext r0
    let (rest, r2) := npRandIntsGo bound k r1
    (v % bound :: rest, r2)

/-- `np.random.randint(bound, size=n)`: a list of `n` draws below `bound`.
As in numpy, an empty range is an error even for `size = 0`. -/
def npRandInts (bound n : ℕ) (r : NpRand) : Option (List ℕ × NpRand) :=
  if bound = 0 then none
  else some (npRandIntsGo bound n r)

/-- `np.random.randint(lo, hi)`: one draw in `[lo, hi)`; `none` models the
`ValueError` raised when `hi ≤ lo`. -/
def npRandIntRange (lo hi : ℤ) (r : NpRand) : Option (ℤ × NpRand) :=
  if hi ≤ lo then none
  else
    let (v, r1) := npNext r
    some (lo + (v % (hi - lo).toNat : ℕ), r1)

/-- Core of `random.sample`: draw `k` elements without replacement by
repeatedly picking a position in the remaining pool and removing it.
(Unguarded helper; `pySample` checks the size.) -/
def sampleGo [Inhabited α] : ℕ → List α → PyRand → List α × PyRand
  | 0, _, r => ([], r)
  | k + 1, pool, r =>
    let idx := (pyNext r).1 % pool.length
    let rest := sampleGo k (pool.eraseIdx idx) (pyNext r).2
    (pool.getD idx default :: rest.1, rest.2)

/-- `random.sample(l, k)`: `none` models the `ValueError` raised when
`k` exceeds the population size. -/
def pySample [Inhabited α] (l : List α) (k : ℕ) (r : PyRand) :
    Option (List α × PyRand) :=
  if l.length < k then none else some (sampleGo k l r)

/-- `random.shuffle(l)`: modelled as drawing a full permutation of `l`
without replacement. -/
def pyShuffle [Inhabited α] (l : List α) (r : PyRand) : List α × PyRand :=
  sampleGo l.length l r

/-- `random.choice(l)` as an index pick: the chosen position. -/
def pyChoiceIdx (n : ℕ) (r : PyRand) : ℕ × PyRand :=
  let (i, r1) := pyNext r
  (i % n, r1)

theorem pyChoiceIdx_lt (n : ℕ) (r : PyRand) (h : 0 < n) : (pyChoiceIdx n r).1 < n := by
  simp only [pyChoiceIdx]
  exact Nat.mod_lt _ h

/-! ## List helpers shared by several functions of `algorithms.py` -/

/-- The `unique` accumulation loop used throughout `algorithms.py`
(`for a in ...: if l[a] not in unique: unique.append(l[a])`): first
occurrences, in order. -/
def pyUnique (l : List α) [DecidableEq α] : List α :=
  l.foldl (fun u x => if x ∈ u then u else u ++ [x]) []

/-- Membership equality of two feature lists: equal as multisets,
independent of order.  Modelled from the spec (section 3): the `BIN`
class of `methods/bin.py` is not under `src/`; two bins compare equal
when their feature lists contain the same multiset of features. -/
def sameMembership [DecidableEq α] (a b : List α) : Bool := a.isPerm b

/-- Exact mean of a list of naturals (`statistics.mean` is exact on ints). -/
def ratMean (l : List ℕ) : ℚ := ((l.map (fun n : ℕ => (n : ℚ))).sum) / l.length

/-! ## The BIN entity

Modelled from the spec (sections 3 and 4.1): `methods/bin.py` is not under
`src/`.  A bin is a feature list, an integer threshold, a rational score
(initialised to the "unscored" sentinel 0), a display name and the `seen`
flag; duplicate detection compares only membership (order-independent,
threshold ignored) and population sorting compares scores. -/
structure BIN where
  featureList : List String
  threshold : ℤ
  score : ℚ
  name : String
  seen : Bool
deriving DecidableEq, Repr

instance : Inhabited BIN := ⟨⟨[], 0, 0, "", false⟩⟩

/-- The `BIN(features, threshold)` constructor (fresh, unscored bin). -/
def BIN.ofList (features : List String) (threshold : ℤ) : BIN :=
  ⟨features, threshold, 0, "", false⟩

/-- `BIN.__eq__`: membership equality, ignoring order and threshold. -/
def binEq (a b : BIN) : Bool := sameMembership a.featureList b.featureList

/-- Python `bin in list_of_bins` (uses `BIN.__eq__`). -/
def listIn (b : BIN) (l : List BIN) : Bool := l.any (fun x => binEq b x)

/-- The score-descending order used by `sorted(bins, reverse=True)`. -/
def binGE (a b : BIN) : Prop := b.score ≤ a.score

instance : DecidableRel binGE := fun a b => inferInstanceAs (Decidable (b.score ≤ a.score))

instance : IsTotal BIN binGE := ⟨fun a b => le_total b.score a.score⟩

instance : IsTrans BIN binGE := ⟨fun _ _ _ h1 h2 => le_trans h2 h1⟩

/-- `sorted(bins, reverse=True)`: stable sort, best score first. -/
def sortDesc (l : List BIN) : List BIN := l.insertionSort binGE

/-! ## DataFrame model -/

/-- A pandas dataframe: a row count and an ordered list of named rational
columns. -/
structure DataFrame where
  nRows : ℕ
  cols : List (String × List ℚ)
deriving DecidableEq, Repr

/-- Read a column (`df[name]`); `none` models `KeyError`. -/
def getCol (df : DataFrame) (name : String) : Option (List ℚ) :=
  (df.cols.find? (fun c => c.1 = name)).map (fun c => c.2)

/-- Column assignment `df[name] = v`: overwrite in place or append. -/
def setCol (df : DataFrame) (name : String) (v : List ℚ) : DataFrame :=
  if df.cols.any (fun c => c.1 = name) then
    { df with cols := df.cols.map (fun c => if c.1 = name then (name, v) else c) }
  else
    { df with cols := df.cols ++ [(name, v)] }

/-- Well-formedness: every column has exactly `nRows` entries. -/
def DataFrame.WF (df : DataFrame) : Prop :=
  ∀ c ∈ df.cols, (c.2 : List ℚ).length = df.nRows

/-- Value of column `f` at row `j` (0 outside; used only under
well-formedness and membership hypotheses). -/
def colVal (df : DataFrame) (f : String) (j : ℕ) : ℚ :=
  ((getCol df f).getD []).getD j 0

/-! ## `remove_empty_variables` (algorithms.py lines 52-80)

Drops the label and duration columns, computes each feature's MAF
`sum / (2 * n_rows)`, splits the features into those with MAF equal to 0
and the rest, and rebuilds the matrix from the non-empty features with
label and duration re-attached.  The rational model requires at least one
row for the MAF to be meaningful (pandas produces non-zero `inf`/`nan`
values on an empty index, so no feature is dropped there either way). -/
def remove_empty_variables (df : DataFrame) (label duration : String) :
    Option (DataFrame × List String × List String) := do
  let lcol ← getCol df label
  let dcol ← getCol df duration
  let featureCols := df.cols.filter (fun c => c.1 ≠ label ∧ c.1 ≠ duration)
  let maf := fun (c : String × List ℚ) => c.2.sum / (2 * df.nRows : ℚ)
  let maf0 := featureCols.filter (fun c => maf c = 0)
  let mafNot0 := featureCols.filter (fun c => maf c ≠ 0)
  let maf_0_features := maf0.map (fun c => c.1)
  let nonempty_feature_list := mafNot0.map (fun c => c.1)
  let kept : DataFrame := { nRows := df.nRows, cols := mafNot0 }
  some (setCol (setCol kept label lcol) duration dcol,
        maf_0_features, nonempty_feature_list)

/-! ## `grouped_feature_matrix` (algorithms.py lines 139-161) -/

/-- The per-bin summation loop: starting from the dummy zero column, add
the member features' columns elementwise (`none` models the `KeyError`
for a member absent from the matrix). -/
def binSum (df : DataFrame) (features : List String) : Option (List ℚ) :=
  features.foldlM (fun acc f => (getCol df f).map (fun col => List.zipWith (· + ·) acc col))
    (List.replicate df.nRows (0 : ℚ))

/-- `grouped_feature_matrix`: one column per bin (the elementwise sum of
the member features' values), then the label and duration columns. -/
def grouped_feature_matrix (df : DataFrame) (label duration : String)
    (binned_feature_groups : List (String × BIN)) : Option DataFrame := do
  let binCols ← binned_feature_groups.mapM
    (fun kb => (binSum df kb.2.featureList).map (fun col => (kb.1, col)))
  let lcol ← getCol df label
  let dcol ← getCol df duration
  some (setCol (setCol { nRows := df.nRows, cols := binCols } label lcol) duration dcol)

/-! ## `tournament_selection_parent_bins` (algorithms.py lines 164-181) -/

/-- Sample size rule: 5% of the population, rounded, unless that rounds
below 2, in which case 50%, rounded. -/
def tournamentSampleSize (n : ℕ) : ℕ :=
  if pyRound ((5 : ℚ)/100 * n) < 2 then (pyRound ((1 : ℚ)/2 * n)).toNat
  else (pyRound ((5 : ℚ)/100 * n)).toNat

/-- `tournament_selection_parent_bins`: seed the generator, sample the
tournament subset without replacement from the population's bins, sort it
best-score-first and return the top two (`none` models both the
`ValueError` of an oversized sample and the `IndexError` when the sample
holds fewer than two bins). -/
def tournament_selection_parent_bins (binned_feature_groups : List (String × BIN))
    (random_seed : ℕ) : Option (List BIN × PyRand) := do
  let r0 := pySeed random_seed
  let vals := binned_feature_groups.map (fun kb => kb.2)
  let (samples, r1) ← pySample vals (tournamentSampleSize vals.length) r0
  match sortDesc samples with
  | p0 :: p1 :: _ => some ([p0, p1], r1)
  | _ => none

/-! ## `create_next_generation` (algorithms.py lines 184-201) -/

/-- Sort the population by score (best first), keep the top
`round(max_population_of_bins * elitism_parameter)` bins as elites and
append the offspring (`none` models the `IndexError` when there are fewer
bins than requested elites). -/
def create_next_generation (binned_feature_groups : List (String × BIN))
    (max_population_of_bins : ℕ) (elitism_parameter : ℚ)
    (offspring_list : List BIN) : Option (List BIN) :=
  let sorted := sortDesc (binned_feature_groups.map (fun kb => kb.2))
  let k := (pyRound ((max_population_of_bins : ℚ) * elitism_parameter)).toNat
  if k ≤ sorted.length then some (sorted.take k ++ offspring_list) else none

/-! ## `crossover_and_mutation_regular` (algorithms.py lines 310-493) -/

/-- Uniform crossover of one parent's features (lines 337-347): each
feature goes to `toOther` when `crossover_probability > random.random()`,
otherwise to `toSelf`.  Returns `(toSelf, toOther, state)` as the lists of
features accumulated for the two offspring, in order. -/
def crossoverOneParent (pcross : ℚ) (parentFeatures : List String) (py : PyRand) :
    List String × List String × PyRand :=
  parentFeatures.foldl
    (fun acc f =>
      if pcross > (pyRandFloat acc.2.2).1 then (acc.1, acc.2.1 ++ [f], (pyRandFloat acc.2.2).2)
      else (acc.1 ++ [f], acc.2.1, (pyRandFloat acc.2.2).2))
    ([], [], py)

/-- Both crossover loops (lines 337-347): parent 1's features split into
`(offspring1, offspring2)`, then parent 2's into `(offspring2, offspring1)`. -/
def crossoverDistribute (pcross : ℚ) (parent1 parent2 : List String) (py : PyRand) :
    List String × List String × PyRand :=
  let r1 := crossoverOneParent pcross parent1 py
  let r2 := crossoverOneParent pcross parent2 r1.2.2
  (r1.1 ++ r2.2.1, r1.2.1 ++ r2.1, r2.2.2)

/-- First size-balancing loop (lines 350-353): while offspring 1 is
larger, move a uniformly chosen feature from offspring 1 to offspring 2
(`random.choice` then `list.remove`, which deletes the first occurrence).
The `while` loop is modelled with structural fuel; `balanceGo1_guard`
below proves the fuel used by `balanceLoop1` always suffices (each pass
shrinks offspring 1), which is the loop's termination argument. -/
def balanceGo1 : ℕ → List String → List String → PyRand →
    List String × List String × PyRand
  | 0, o1, o2, py => (o1, o2, py)
  | fuel + 1, o1, o2, py =>
    if o2.length < o1.length then
      let r1 := pyChoiceIdx o1.length py
      let v := o1.getD r1.1 ""
      balanceGo1 fuel (o1.erase v) (o2 ++ [v]) r1.2
    else (o1, o2, py)

def balanceLoop1 (o1 o2 : List String) (py : PyRand) :
    List String × List String × PyRand :=
  balanceGo1 o1.length o1 o2 py

/-- Second size-balancing loop (lines 355-358), symmetric. -/
def balanceGo2 : ℕ → List String → List String → PyRand →
    List String × List String × PyRand
  | 0, o1, o2, py => (o1, o2, py)
  | fuel + 1, o1, o2, py =>
    if o1.length < o2.length then
      let r1 := pyChoiceIdx o2.length py
      let v := o2.getD r1.1 ""
      balanceGo2 fuel (o1 ++ [v]) (o2.erase v) r1.2
    else (o1, o2, py)

def balanceLoop2 (o1 o2 : List String) (py : PyRand) :
    List String × List String × PyRand :=
  balanceGo2 o2.length o1 o2 py

/-- Threshold crossover (lines 361-370): with probability
`crossover_probability` the parents' thresholds go straight to the two
offspring, otherwise cross-wise. -/
def thresholdCrossover (pcross : ℚ) (t1p t2p : ℤ) (py : PyRand) :
    ℤ × ℤ × PyRand :=
  let (v, py1) := pyRandFloat py
  if pcross > v then (t1p, t2p, py1) else (t2p, t1p, py1)

/-- The addition probability of the Regular mutation (lines 380-387 and
413-419): scaled by the bin-to-remainder ratio, flat for an empty
offspring, zero when the offspring already spans the whole feature list. -/
def mutationAdditionProb (pmut : ℚ) (offspringLen featureListLen : ℕ) : ℚ :=
  if offspringLen > 0 ∧ offspringLen ≠ featureListLen then
    pmut * offspringLen / ((featureListLen : ℚ) - offspringLen)
  else if offspringLen = 0 ∧ offspringLen ≠ featureListLen then pmut
  else 0

/-- Deletion mutation draws (lines 389-394): one draw per position of the
offspring; positions whose draw falls below `mutation_probability`
contribute their feature to `deleted_list`. -/
def deletionDraws (pmut : ℚ) (offspring : List String) (py : PyRand) :
    List String × PyRand :=
  offspring.foldl
    (fun acc f =>
      let (v, py1) := pyRandFloat acc.2
      if pmut > v then (acc.1 ++ [f], py1) else (acc.1, py1))
    ([], py)

/-- Addition mutation draws (lines 403-407): one draw per feature outside
the offspring; successful draws append the feature. -/
def additionDraws (prob : ℚ) (featuresNotIn : List String) (py : PyRand) :
    List String × PyRand :=
  featuresNotIn.foldl
    (fun acc f =>
      let (v, py1) := pyRandFloat acc.2
      if prob > v then (acc.1 ++ [f], py1) else (acc.1, py1))
    ([], py)

/-- One offspring's full Regular mutation (lines 380-407 for offspring 1,
411-441 for offspring 2): addition probability, deletion draws, removal
of the drawn features (first occurrences), then addition draws against
the features currently outside the offspring. -/
def regularMutation (pmut : ℚ) (feature_list offspring : List String) (py : PyRand) :
    List String × PyRand :=
  let addProb := mutationAdditionProb pmut offspring.length feature_list.length
  let (deleted, py1) := deletionDraws pmut offspring py
  let afterDel := deleted.foldl (fun acc d => acc.erase d) offspring
  let featuresNotIn := feature_list.filter (fun f => f ∉ afterDel)
  let (added, py2) := additionDraws addProb featuresNotIn py1
  (afterDel ++ added, py2)

/-- Threshold mutation (lines 445-446 and 449-450, identical at lines
603-604 and 607-608 of the Simple strategy): the threshold is replaced by
`np.random.randint(min_threshold, max_threshold + 1)` exactly when the
uniform draw strictly exceeds `mutation_probability`. -/
def evolveThresholdMutate (pmut : ℚ) (minT maxT : ℤ) (t : ℤ)
    (py : PyRand) (np0 : NpRand) : Option (ℤ × PyRand × NpRand) :=
  if pmut < (pyRandFloat py).1 then
    match npRandIntRange minT (maxT + 1) np0 with
    | none => none
    | some (x, np1) => some (x, (pyRandFloat py).2, np1)
  else some (t, (pyRandFloat py).2, np0)

/-- Final cleanup of one offspring (lines 455-469 and 471-484): keep first
occurrences, then backfill the removed count with features sampled from
outside the offspring (or all of them when fewer are available). -/
def regularCleanup (feature_list offspring : List String) (py : PyRand) :
    Option (List String × PyRand) := do
  let unique := pyUnique offspring
  let replaceNumber := offspring.length - unique.length
  let featuresNotIn := feature_list.filter (fun f => f ∉ offspring)
  if replaceNumber < featuresNotIn.length then
    let (replacements, py1) ← pySample featuresNotIn replaceNumber py
    some (unique ++ replacements, py1)
  else
    some (unique ++ featuresNotIn, py)

/-- One replacement set of the Regular strategy (loop body, lines
321-491): tournament selection (which reseeds Python's generator, so the
incoming `random`-module state is never consulted), uniform crossover,
size balancing, optional threshold crossover, deletion/addition mutation
of both offspring, optional threshold mutation, cleanup, and the two
emitted `BIN`s. -/
def regularPairStep (feature_list : List String)
    (binned_feature_groups : List (String × BIN))
    (pcross pmut : ℚ) (threshold : ℤ) (evolving : Bool) (minT maxT : ℤ)
    (seed_i : ℕ) (np0 : NpRand) : Option (BIN × BIN × PyRand × NpRand) := do
  let (parents, py0) ← tournament_selection_parent_bins binned_feature_groups seed_i
  let parent1 := parents.getD 0 default
  let parent2 := parents.getD 1 default
  let (o1c, o2c, py1) := crossoverDistribute pcross parent1.featureList parent2.featureList py0
  let (o1b, o2b, py2) := balanceLoop1 o1c o2c py1
  let (o1, o2, py3) := balanceLoop2 o1b o2b py2
  let (t1x, t2x, py4) :=
    if evolving then thresholdCrossover pcross parent1.threshold parent2.threshold py3
    else (threshold, threshold, py3)
  let (o1m, py5) := regularMutation pmut feature_list o1 py4
  let (o2m, py6) := regularMutation pmut feature_list o2 py5
  let tstep ←
    if evolving then do
      let (t1, py7, np1) ← evolveThresholdMutate pmut minT maxT t1x py6 np0
      let (t2, py8, np2) ← evolveThresholdMutate pmut minT maxT t2x py7 np1
      some (t1, t2, py8, np2)
    else some (t1x, t2x, py6, np0)
  let (t1, t2, py9, np3) := tstep
  let (o1f, py10) ← regularCleanup feature_list o1m py9
  let (o2f, py11) ← regularCleanup feature_list o2m py10
  some (BIN.ofList o1f t1, BIN.ofList o2f t2, py11, np3)

/-- `num_replacement_sets` (line 316 and line 502). -/
def numReplacementSets (max_population_of_bins : ℕ) (elitism_parameter : ℚ) : ℕ :=
  (pyInt (((max_population_of_bins : ℚ) - elitism_parameter * max_population_of_bins) / 2)).toNat

/-- The offspring loop of the Regular strategy: one pair of offspring per
per-iteration seed.  The incoming `random`-module state is irrelevant to
each iteration (tournament selection reseeds first), so it is not an
argument of `regularPairStep`; the state produced by each iteration is
threaded onward as the new global state. -/
def cmLoopRegular (feature_list : List String)
    (binned_feature_groups : List (String × BIN))
    (pcross pmut : ℚ) (threshold : ℤ) (evolving : Bool) (minT maxT : ℤ) :
    List ℕ → List BIN → PyRand → NpRand → Option (List BIN × PyRand × NpRand)
  | [], offspring, py, np0 => some (offspring, py, np0)
  | s :: rest, offspring, _, np0 => do
    let (b1, b2, py1, np1) ← regularPairStep feature_list binned_feature_groups
      pcross pmut threshold evolving minT maxT s np0
    cmLoopRegular feature_list binned_feature_groups pcross pmut threshold
      evolving minT maxT rest (offspring ++ [b1, b2]) py1 np1

/-- `crossover_and_mutation_regular` (lines 310-493). -/
def crossover_and_mutation_regular (max_population_of_bins : ℕ)
    (elitism_parameter : ℚ) (feature_list : List String)
    (binned_feature_groups : List (String × BIN))
    (crossover_probability mutation_probability : ℚ) (random_seed : ℕ)
    (threshold : ℤ) (threshold_is_evolving : Bool) (min_threshold max_threshold : ℤ)
    (py : PyRand) (np0 : NpRand) : Option (List BIN × PyRand × NpRand) := do
  let n := numReplacementSets max_population_of_bins elitism_parameter
  let np1 := npSeed random_seed
  let (random_seeds, np2) ← npRandInts (feature_list.length * feature_list.length)
    (n * 8) np1
  let seeds := (List.range n).map (fun i => random_seeds.getD i 0)
  cmLoopRegular feature_list binned_feature_groups crossover_probability
    mutation_probability threshold threshold_is_evolving min_threshold max_threshold
    seeds [] py np2

/-! ## `crossover_and_mutation_new_simpler` (algorithms.py lines 496-617) -/

/-- The per-offspring mutation loop of the Simple strategy (lines 573-584
for offspring 1, 587-598 for offspring 2).  For each feature of the
offspring: with probability `mutation_probability` a mutation occurs, in
which case, when the half coin succeeds and the offspring (of fixed
pre-loop length `oLen`) is smaller than the feature list (length `lLen`),
the next feature of the shuffled not-present pool is inserted right
before the feature and both are kept; in every other mutated case the
feature is dropped.  Unmutated features are kept.  `none` models the
`IndexError` when the pool is exhausted. -/
def simpleMutLoop (pmut : ℚ) (oLen lLen : ℕ) (fni : List String) :
    List String → ℕ → PyRand → Option (List String × ℕ × PyRand)
  | [], idx, py => some ([], idx, py)
  | f :: rest, idx, py =>
    let (v, py1) := pyRandFloat py
    if pmut > v then
      let (v2, py2) := pyRandFloat py1
      if (1 : ℚ)/2 > v2 ∧ oLen < lLen then
        if hidx : idx < fni.length then do
          let (out, idx2, py3) ← simpleMutLoop pmut oLen lLen fni rest (idx + 1) py2
          some (fni.get ⟨idx, hidx⟩ :: f :: out, idx2, py3)
        else none
      else do
        let (out, idx2, py3) ← simpleMutLoop pmut oLen lLen fni rest idx py2
        some (out, idx2, py3)
    else do
      let (out, idx2, py3) ← simpleMutLoop pmut oLen lLen fni rest idx py1
      some (f :: out, idx2, py3)

/-- One replacement set of the Simple strategy (loop body, lines 508-615):
tournament selection, uniform crossover, in-bin deduplication, shuffled
not-present pools, optional threshold crossover, the grow-or-drop
mutation loop on both offspring, optional threshold mutation, and the two
emitted `BIN`s. -/
def simplerPairStep (feature_list : List String)
    (binned_feature_groups : List (String × BIN))
    (pcross pmut : ℚ) (threshold : ℤ) (evolving : Bool) (minT maxT : ℤ)
    (seed_i : ℕ) (np0 : NpRand) : Option (BIN × BIN × PyRand × NpRand) := do
  let (parents, py0) ← tournament_selection_parent_bins binned_feature_groups seed_i
  let parent1 := parents.getD 0 default
  let parent2 := parents.getD 1 default
  let (o1c, o2c, py1) := crossoverDistribute pcross parent1.featureList parent2.featureList py0
  let o1 := pyUnique o1c
  let (fni1, py2) := pyShuffle (feature_list.filter (fun f => f ∉ o1)) py1
  let o2 := pyUnique o2c
  let (fni2, py3) := pyShuffle (feature_list.filter (fun f => f ∉ o2)) py2
  let (t1x, t2x, py4) :=
    if evolving then thresholdCrossover pcross parent1.threshold parent2.threshold py3
    else (threshold, threshold, py3)
  let (o1m, _, py5) ← simpleMutLoop pmut o1.length feature_list.length fni1 o1 0 py4
  let (o2m, _, py6) ← simpleMutLoop pmut o2.length feature_list.length fni2 o2 0 py5
  let tstep ←
    if evolving then do
      let (t1, py7, np1) ← evolveThresholdMutate pmut minT maxT t1x py6 np0
      let (t2, py8, np2) ← evolveThresholdMutate pmut minT maxT t2x py7 np1
      some (t1, t2, py8, np2)
    else some (t1x, t2x, py6, np0)
  let (t1, t2, py9, np3) := tstep
  some (BIN.ofList o1m t1, BIN.ofList o2m t2, py9, np3)

/-- The offspring loop of the Simple strategy. -/
def cmLoopSimpler (feature_list : List String)
    (binned_feature_groups : List (String × BIN))
    (pcross pmut : ℚ) (threshold : ℤ) (evolving : Bool) (minT maxT : ℤ) :
    List ℕ → List BIN → PyRand → NpRand → Option (List BIN × PyRand × NpRand)
  | [], offspring, py, np0 => some (offspring, py, np0)
  | s :: rest, offspring, _, np0 => do
    let (b1, b2, py1, np1) ← simplerPairStep feature_list binned_feature_groups
      pcross pmut threshold evolving minT maxT s np0
    cmLoopSimpler feature_list binned_feature_groups pcross pmut threshold
      evolving minT maxT rest (offspring ++ [b1, b2]) py1 np1

/-- `crossover_and_mutation_new_simpler` (lines 496-617).  Note line 504:
this strategy additionally reseeds Python's `random` module with the
top-level seed before the loop, so the incoming `random`-module state is
overwritten immediately. -/
def crossover_and_mutation_new_simpler (max_population_of_bins : ℕ)
    (elitism_parameter : ℚ) (feature_list : List String)
    (binned_feature_groups : List (String × BIN))
    (crossover_probability mutation_probability : ℚ) (random_seed : ℕ)
    (threshold : ℤ) (threshold_is_evolving : Bool) (min_threshold max_threshold : ℤ)
    (py : PyRand) (np0 : NpRand) : Option (List BIN × PyRand × NpRand) := do
  let n := numReplacementSets max_population_of_bins elitism_parameter
  let np1 := npSeed random_seed
  let py0 := pySeed random_seed
  let (random_seeds, np2) ← npRandInts (feature_list.length * feature_list.length)
    (n * 8) np1
  let seeds := (List.range n).map (fun i => random_seeds.getD i 0)
  cmLoopSimpler feature_list binned_feature_groups crossover_probability
    mutation_probability threshold threshold_is_evolving min_threshold max_threshold
    seeds [] py0 np2

/-! ## `regroup_feature_matrix` (algorithms.py lines 204-307) -/

/-- Duplicate-bin elimination (lines 212-220): keep each bin not
membership-equal to an earlier kept bin; count the dropped duplicates. -/
def dedupBins (l : List BIN) : List BIN × ℕ :=
  l.foldl (fun acc b => if listIn b acc.1 then (acc.1, acc.2 + 1) else (acc.1 ++ [b], acc.2))
    ([], 0)

/-- The duplicate-avoidance `while` loop for one synthesized replacement
(lines 242-245): while the candidate is membership-equal to a bin already
in the list, reseed from the next pre-drawn seed and resample.  `none`
models the `IndexError` once the pre-drawn seeds are exhausted. -/
def resampleWhile (feature_list : List String) (replacement_length : ℕ)
    (threshold : ℤ) (feature_bin_list : List BIN) :
    List ℕ → BIN → Option BIN
  | [], b => if listIn b feature_bin_list then none else some b
  | s :: rest, b =>
    if listIn b feature_bin_list then do
      let (smp, _) ← pySample feature_list replacement_length (pySeed s)
      resampleWhile feature_list replacement_length threshold feature_bin_list
        rest (BIN.ofList smp threshold)
    else some b

/-- The replacement loop (lines 233-246): for each deleted (empty or
duplicate) bin, seed from `random_seeds[i]`, sample a fresh bin of
`replacement_length` features, reseed Python's generator from
`random_seeds[d+k+i]`, pre-draw `2 * len(feature_bin_list)` numpy seeds
for the duplicate-avoidance loop, run it, and append the result. -/
def replacementLoop (feature_list : List String) (replacement_length : ℕ)
    (threshold : ℤ) (random_seeds : List ℕ) (total : ℕ) :
    ℕ → ℕ → List BIN → NpRand → Option (List BIN × NpRand)
  | 0, _, fbl, np0 => some (fbl, np0)
  | remaining + 1, i, fbl, np0 => do
    let (smp, _) ← pySample feature_list replacement_length
      (pySeed (random_seeds.getD i 0))
    let _py2 := pySeed (random_seeds.getD (total + i) 0)
    let (innerSeeds, np1) ← npRandInts (feature_list.length * feature_list.length)
      (2 * fbl.length) np0
    let replacement ← resampleWhile feature_list replacement_length threshold fbl
      innerSeeds (BIN.ofList smp threshold)
    replacementLoop feature_list replacement_length threshold random_seeds total
      remaining (i + 1) (fbl ++ [replacement]) np1

/-- The in-bin repair loop (lines 253-275): for each bin, keep the first
occurrences, compute how many repeats were removed, and backfill with
that many features sampled from outside the bin (or with all of them when
no more are available); a changed membership is written back through the
setter, flipping `seen` to false. -/
def inBinRepair (feature_list : List String) (seeds2 : List ℕ) :
    List BIN → ℕ → Option (List BIN)
  | [], _ => some []
  | b :: rest, counter => do
    let unique := pyUnique b.featureList
    let replaceNumber := b.featureList.length - unique.length
    let featuresNotIn := feature_list.filter (fun f => f ∉ b.featureList)
    let (binReplacement, counter2) ←
      if replaceNumber < featuresNotIn.length then do
        let (replacements, _) ← pySample featuresNotIn replaceNumber
          (pySeed (seeds2.getD counter 0))
        some (unique ++ replacements, counter + 1)
      else
        some (unique ++ featuresNotIn, counter)
    let b2 :=
      if b.featureList ≠ binReplacement then
        { b with featureList := binReplacement, seen := false }
      else b
    let rest2 ← inBinRepair feature_list seeds2 rest counter2
    some (b2 :: rest2)

/-- The final rebuild (lines 277-305): for each repaired bin, the
elementwise sum of its members' columns becomes the column `Bin i`; bins
are renamed sequentially and the name-to-bin mapping is rebuilt; label and
duration columns are re-attached. -/
def buildBinsDf (feature_matrix : DataFrame) (label duration : String) :
    List BIN → ℕ → Option (List (String × List ℚ) × List (String × BIN))
  | [], _ => some ([], [])
  | b :: rest, count => do
    let col ← binSum feature_matrix b.featureList
    let nm := "Bin " ++ toString (count + 1)
    let (cols, pop) ← buildBinsDf feature_matrix label duration rest (count + 1)
    some ((nm, col) :: cols, (nm, { b with name := nm }) :: pop)

/-- `regroup_feature_matrix` (lines 204-307): drop empty bins, drop
membership-duplicates, synthesize one replacement per dropped bin (each
of the rounded mean surviving length), repair in-bin repeats, and rebuild
the bin-feature matrix and the name-to-bin population. -/
def regroup_feature_matrix (feature_list : List String) (feature_matrix : DataFrame)
    (label duration : String) (feature_bin_list : List BIN) (random_seed : ℕ)
    (threshold : ℤ) : Option (DataFrame × List (String × BIN)) := do
  let bins_deleted := feature_bin_list.filter (fun b => b.featureList.length = 0)
  let fbl1 := feature_bin_list.filter (fun b => ¬ b.featureList.length = 0)
  let dd := dedupBins fbl1
  let bin_lengths := (dd.1.filter (fun b => ¬ b.featureList.length = 0)).map
    (fun b => b.featureList.length)
  if bin_lengths.length = 0 then none  -- statistics.mean of an empty list
  else do
    let replacement_length := (pyRound (ratMean bin_lengths)).toNat
    let np0 := npSeed random_seed
    let total := bins_deleted.length + dd.2
    let (random_seeds, np1) ← npRandInts (feature_list.length * feature_list.length)
      (total * 2) np0
    let (fbl2, np2) ← replacementLoop feature_list replacement_length threshold
      random_seeds total total 0 dd.1 np1
    let (seeds2, _np3) ← npRandInts (feature_list.length * feature_list.length)
      (2 * fbl2.length) np2
    let fbl3 ← inBinRepair feature_list seeds2 fbl2 0
    let (binCols, pop) ← buildBinsDf feature_matrix label duration fbl3 0
    let lcol ← getCol feature_matrix label
    let dcol ← getCol feature_matrix duration
    some (setCol (setCol { nRows := feature_matrix.nRows, cols := binCols } label lcol)
            duration dcol, pop)

/-! ## Covariate handling in `fibers_algorithm` (lines 626-647, 703-708,
732-734, 773-777)

The claim under test is about Python name binding: when `covariates` is
falsy the `else` branch binds only the misspelled `covatiate_matrix`,
leaving `covariate_matrix` unbound, so every later read of
`covariate_matrix` raises `NameError`.  The environment records, for each
of the two spellings, whether the name is bound (`some`) and, if so, its
value (a `DataFrame` or Python `None`). -/
structure PyEnv where
  covariate_matrix : Option (Option DataFrame)
  covatiate_matrix : Option (Option DataFrame)
deriving Repr

/-- The covariate prologue of `fibers_algorithm` (lines 627-647) with
`process_categorical = False` as in the source: a truthy `covariates`
binds `covariate_matrix` to the selected columns with label and duration
attached; a falsy one binds only the misspelled name, to `None`.  `none`
models the `KeyError` of selecting a missing covariate column. -/
def fibersCovariatePrologue (original_feature_matrix : DataFrame)
    (covariates : List String) (label duration : String) : Option PyEnv :=
  if covariates ≠ [] then do
    let selected ← covariates.mapM (fun c => (getCol original_feature_matrix c).map (c, ·))
    let lcol ← getCol original_feature_matrix label
    let dcol ← getCol original_feature_matrix duration
    let cm := setCol (setCol { nRows := original_feature_matrix.nRows, cols := selected }
      label lcol) duration dcol
    some { covariate_matrix := some (some cm), covatiate_matrix := none }
  else
    some { covariate_matrix := none, covatiate_matrix := some none }

/-- Reading a Python name: `none` (unbound) raises `NameError`. -/
def readPyName (binding : Option α) : Except String α :=
  match binding with
  | some v => Except.ok v
  | none => Except.error "NameError"

/-- The adaptive-threshold call sites (lines 703-708 at initialization and
773-777 in the loop) evaluate `covariate_matrix` to pass it to
`try_all_thresholds`. -/
def adaptiveThresholdCovariateArg (env : PyEnv) : Except String (Option DataFrame) :=
  readPyName env.covariate_matrix

/-- The AIC scoring call sites (lines 732-734 and 788-790) evaluate
`covariate_matrix` to pass it to `cox_feature_importance`. -/
def aicCovariateArg (env : PyEnv) : Except String (Option DataFrame) :=
  readPyName env.covariate_matrix

/-! ## Supporting lemmas -/

theorem perm_getD_cons_eraseIdx [DecidableEq α] [Inhabited α] (l : List α) (i : ℕ)
    (h : i < l.length) : l.Perm (l.getD i default :: l.eraseIdx i) := by
  rw [List.getD_eq_getElem _ _ h]
  exact (List.perm_cons_erase (List.getElem_mem h)).trans
    (List.Perm.cons _ (List.erase_getElem h))

theorem sampleGo_perm [Inhabited α] [DecidableEq α] (k : ℕ) :
    ∀ (pool : List α) (r : PyRand), k ≤ pool.length →
      ∃ rest : List α, pool.Perm ((sampleGo k pool r).1 ++ rest) := by
  induction k with
  | zero => intro pool r h; exact ⟨pool, by simp [sampleGo]⟩
  | succ n ih =>
    intro pool r h
    have hpos : 0 < pool.length := by omega
    have hlt : (pyNext r).1 % pool.length < pool.length := Nat.mod_lt _ hpos
    have hlen : (pool.eraseIdx ((pyNext r).1 % pool.length)).length + 1 = pool.length :=
      List.length_eraseIdx_add_one hlt
    obtain ⟨rest, hrest⟩ := ih (pool.eraseIdx ((pyNext r).1 % pool.length)) (pyNext r).2
      (by omega)
    refine ⟨rest, ?_⟩
    simp only [sampleGo, List.cons_append]
    refine (perm_getD_cons_eraseIdx pool _ hlt).trans ?_
    exact List.Perm.cons _ hrest

theorem sampleGo_length [Inhabited α] (k : ℕ) :
    ∀ (pool : List α) (r : PyRand), k ≤ pool.length →
      ((sampleGo k pool r).1).length = k := by
  induction k with
  | zero => intro pool r h; simp [sampleGo]
  | succ n ih =>
    intro pool r h
    have hpos : 0 < pool.length := by omega
    have hlt : (pyNext r).1 % pool.length < pool.length := Nat.mod_lt _ hpos
    have hlen : (pool.eraseIdx ((pyNext r).1 % pool.length)).length + 1 = pool.length :=
      List.length_eraseIdx_add_one hlt
    simp only [sampleGo, List.length_cons]
    rw [ih _ _ (by omega)]

theorem sampleGo_subset [Inhabited α] [DecidableEq α] (k : ℕ) (pool : List α)
    (r : PyRand) (h : k ≤ pool.length) : ∀ x ∈ (sampleGo k pool r).1, x ∈ pool := by
  obtain ⟨rest, hrest⟩ := sampleGo_perm k pool r h
  intro x hx
  exact hrest.mem_iff.mpr (List.mem_append_left _ hx)

theorem sampleGo_nodup [Inhabited α] [DecidableEq α] (k : ℕ) (pool : List α)
    (r : PyRand) (h : k ≤ pool.length) (hnd : pool.Nodup) :
    ((sampleGo k pool r).1).Nodup := by
  obtain ⟨rest, hrest⟩ := sampleGo_perm k pool r h
  exact ((hrest.nodup_iff.mp hnd).sublist (List.sublist_append_left _ _))

theorem pySample_eq_some_iff [Inhabited α] (l : List α) (k : ℕ) (r : PyRand) :
    (pySample l k r).isSome ↔ k ≤ l.length := by
  simp only [pySample]
  by_cases h : l.length < k
  · rw [if_pos h]; simp; omega
  · rw [if_neg h]; simp; omega

theorem pySample_some [Inhabited α] (l : List α) (k : ℕ) (r : PyRand)
    (h : k ≤ l.length) : pySample l k r = some (sampleGo k l r) := by
  simp only [pySample]
  rw [if_neg (by omega)]

theorem pySample_length [Inhabited α] [DecidableEq α] {l out : List α} {k : ℕ}
    {r r2 : PyRand} (h : pySample l k r = some (out, r2)) : out.length = k := by
  by_cases hk : k ≤ l.length
  · rw [pySample_some l k r hk] at h
    have : out = (sampleGo k l r).1 := by
      have := congrArg (fun p => (Option.getD p ((sampleGo k l r))).1) h
      simpa using this.symm
    rw [this]; exact sampleGo_length k l r hk
  · simp only [pySample, if_pos (by omega : l.length < k)] at h
    exact absurd h (by simp)

theorem pySample_nodup [Inhabited α] [DecidableEq α] {l out : List α} {k : ℕ}
    {r r2 : PyRand} (h : pySample l k r = some (out, r2)) (hnd : l.Nodup) :
    out.Nodup := by
  by_cases hk : k ≤ l.length
  · rw [pySample_some l k r hk] at h
    have : out = (sampleGo k l r).1 := by
      have := congrArg (fun p => (Option.getD p ((sampleGo k l r))).1) h
      simpa using this.symm
    rw [this]; exact sampleGo_nodup k l r hk hnd
  · simp only [pySample, if_pos (by omega : l.length < k)] at h
    exact absurd h (by simp)

theorem pySample_subset [Inhabited α] [DecidableEq α] {l out : List α} {k : ℕ}
    {r r2 : PyRand} (h : pySample l k r = some (out, r2)) : ∀ x ∈ out, x ∈ l := by
  by_cases hk : k ≤ l.length
  · rw [pySample_some l k r hk] at h
    have : out = (sampleGo k l r).1 := by
      have := congrArg (fun p => (Option.getD p ((sampleGo k l r))).1) h
      simpa using this.symm
    rw [this]; exact sampleGo_subset k l r hk
  · simp only [pySample, if_pos (by omega : l.length < k)] at h
    exact absurd h (by simp)

theorem pyRound_ge_floor (q : ℚ) : ⌊q⌋ ≤ pyRound q := by
  unfold pyRound
  split_ifs <;> omega

theorem pyRound_le_ceil (q : ℚ) : pyRound q ≤ ⌊q⌋ + 1 := by
  unfold pyRound
  split_ifs <;> omega

theorem pyRound_one_le {q : ℚ} (h : 1 ≤ q) : 1 ≤ pyRound q := by
  have h1 : (1 : ℤ) ≤ ⌊q⌋ := by
    have := Int.le_floor.mpr (by exact_mod_cast h : ((1 : ℤ) : ℚ) ≤ q)
    simpa using this
  exact le_trans h1 (pyRound_ge_floor q)

/-- `pyUnique` over an accumulator: membership. -/
theorem pyUnique_foldl_mem [DecidableEq α] (l : List α) :
    ∀ (acc : List α) (x : α),
      (x ∈ l.foldl (fun u y => if y ∈ u then u else u ++ [y]) acc ↔ x ∈ acc ∨ x ∈ l) := by
  induction l with
  | nil => intro acc x; simp
  | cons a t ih =>
    intro acc x
    simp only [List.foldl_cons]
    by_cases ha : a ∈ acc
    · rw [if_pos ha, ih]
      constructor
      · rintro (h | h)
        · exact Or.inl h
        · exact Or.inr (List.mem_cons_of_mem _ h)
      · rintro (h | h)
        · exact Or.inl h
        · rcases List.mem_cons.mp h with rfl | h2
          · exact Or.inl ha
          · exact Or.inr h2
    · rw [if_neg ha, ih]
      simp only [List.mem_append, List.mem_singleton, List.mem_cons]
      tauto

theorem pyUnique_mem [DecidableEq α] (l : List α) (x : α) :
    x ∈ pyUnique l ↔ x ∈ l := by
  unfold pyUnique
  rw [pyUnique_foldl_mem]
  simp

/-- `pyUnique` over an accumulator: no-duplicates is preserved. -/
theorem pyUnique_foldl_nodup [DecidableEq α] (l : List α) :
    ∀ acc : List α, acc.Nodup →
      (l.foldl (fun u y => if y ∈ u then u else u ++ [y]) acc).Nodup := by
  induction l with
  | nil => intro acc h; simpa using h
  | cons a t ih =>
    intro acc h
    simp only [List.foldl_cons]
    by_cases ha : a ∈ acc
    · rw [if_pos ha]; exact ih acc h
    · rw [if_neg ha]
      refine ih _ ?_
      simpa [List.nodup_append] using ⟨h, ha⟩

theorem pyUnique_nodup [DecidableEq α] (l : List α) : (pyUnique l).Nodup :=
  pyUnique_foldl_nodup l [] List.nodup_nil

theorem pyUnique_ne_nil [DecidableEq α] {l : List α} (h : l ≠ []) :
    pyUnique l ≠ [] := by
  match l with
  | [] => exact absurd rfl h
  | a :: t =>
    intro hcon
    have : a ∈ pyUnique (a :: t) := (pyUnique_mem _ _).mpr (List.mem_cons_self a t)
    rw [hcon] at this
    exact absurd this (List.not_mem_nil a)

theorem sum_nonneg_eq_zero_iff {l : List ℚ} (h0 : ∀ x ∈ l, 0 ≤ x) :
    l.sum = 0 ↔ ∀ x ∈ l, x = 0 := by
  induction l with
  | nil => simp
  | cons a t ih =>
    have ha : 0 ≤ a := h0 a (List.mem_cons_self a t)
    have ht : ∀ x ∈ t, 0 ≤ x := fun x hx => h0 x (List.mem_cons_of_mem _ hx)
    have hts : 0 ≤ t.sum := List.sum_nonneg ht
    simp only [List.sum_cons, List.mem_cons]
    constructor
    · intro h
      have ha0 : a = 0 := by linarith
      have hts0 : t.sum = 0 := by linarith
      intro x hx
      rcases hx with rfl | hx
      · exact ha0
      · exact (ih ht).mp hts0 x hx
    · intro h
      have ha0 : a = 0 := h a (Or.inl rfl)
      have : t.sum = 0 := (ih ht).mpr (fun x hx => h x (Or.inr hx))
      rw [ha0, this, add_zero]

/-! ## Claim C2 -/

/-- Concrete matrix for claim C2: feature `f1` is constant-one
(monomorphic, zero variance) yet its MAF is 1/2, not 0; feature `f0` is
all-zero. -/
def dfC2 : DataFrame :=
  ⟨2, [("f1", [1, 1]), ("f0", [0, 0]), ("L", [1, 0]), ("D", [3, 4])]⟩

/-- Claim C2, counterexample: the preprocessing step does NOT remove every
zero-variance (constant) feature.  In `dfC2` the feature `f1` is constant
across all instances, but `remove_empty_variables` returns only `f0` as
dropped: `f1` is kept because its column sum is nonzero. -/
theorem claim_C2_counterexample :
    (remove_empty_variables dfC2 "L" "D").map (fun r => r.2.1) = some ["f0"] ∧
    getCol dfC2 "f1" = some (List.replicate 2 (1 : ℚ)) ∧
    "f1" ∉ ["f0"] := by
  refine ⟨by decide, by decide, by decide⟩

/-- Claim C2, amended: provided the matrix has at least one row,
`remove_empty_variables` drops exactly those features (non-label,
non-duration columns) whose column sums to zero — with nonnegative values
these are exactly the all-zero (empty) features — and returns that list;
a nonzero constant feature is zero-variance but is NOT removed. -/
theorem claim_C2_amended (df : DataFrame) (label duration : String)
    (hrows : 0 < df.nRows) (kept : DataFrame) (dropped nonempty : List String)
    (hres : remove_empty_variables df label duration = some (kept, dropped, nonempty)) :
    dropped = (df.cols.filter
        (fun c => c.1 ≠ label ∧ c.1 ≠ duration ∧ c.2.sum = 0)).map (fun c => c.1) ∧
    nonempty = (df.cols.filter
        (fun c => c.1 ≠ label ∧ c.1 ≠ duration ∧ c.2.sum ≠ 0)).map (fun c => c.1) ∧
    (∀ c ∈ df.cols, (∀ x ∈ c.2, (0:ℚ) ≤ x) → ((c.2 : List ℚ).sum = 0 ↔ ∀ x ∈ c.2, x = 0)) := by
  have hden : ((2 * df.nRows : ℚ)) ≠ 0 := by
    have : (0 : ℚ) < 2 * df.nRows := by positivity
    exact ne_of_gt this
  have hmaf : ∀ c : String × List ℚ, (c.2.sum / (2 * df.nRows : ℚ) = 0 ↔ c.2.sum = 0) := by
    intro c
    rw [div_eq_zero_iff]
    simp [hden]
  rcases hl : getCol df label with _ | lcol
  · simp [remove_empty_variables, hl] at hres
  rcases hd : getCol df duration with _ | dcol
  · simp [remove_empty_variables, hl, hd] at hres
  simp only [remove_empty_variables, hl, hd, Option.bind_eq_bind', Option.some_bind,
    Option.some_inj, Prod.mk.injEq] at hres
  refine ⟨?_, ?_, ?_⟩
  · rw [← hres.2.1]
    congr 1
    rw [List.filter_filter]
    apply List.filter_congr
    intro c hc
    rw [← Bool.decide_and]
    apply decide_eq_decide.mpr
    simp only [ne_eq, hmaf c]
    tauto
  · rw [← hres.2.2]
    congr 1
    rw [List.filter_filter]
    apply List.filter_congr
    intro c hc
    rw [← Bool.decide_and]
    apply decide_eq_decide.mpr
    simp only [ne_eq, hmaf c]
    tauto
  · intro c hc hpos
    exact sum_nonneg_eq_zero_iff hpos

/-- Witness for claim C2's amended theorem at the concrete matrix `dfC2`. -/
theorem claim_C2_amended_witness :
    0 < dfC2.nRows ∧
    (remove_empty_variables dfC2 "L" "D").map (fun r => r.2.1) =
      some ((dfC2.cols.filter
        (fun c => c.1 ≠ "L" ∧ c.1 ≠ "D" ∧ c.2.sum = 0)).map (fun c => c.1)) := by
  refine ⟨by decide, ?_⟩
  rcases hres : remove_empty_variables dfC2 "L" "D" with _ | ⟨kept, dropped, nonempty⟩
  · exact absurd hres (by decide)
  · have h := claim_C2_amended dfC2 "L" "D" (by decide) kept dropped nonempty hres
    simp [h.1]

/-! ## Claim C8 -/

/-- The environment produced by the covariate prologue when no covariates
are configured. -/
def envNoCov : PyEnv := { covariate_matrix := none, covatiate_matrix := some none }

/-- Claim C8: when covariates are not configured (the empty list, Python
falsy), `fibers_algorithm`'s prologue binds only the misspelled
`covatiate_matrix` (to `None`) and never binds `covariate_matrix`; hence
the adaptive-threshold call sites and the AIC scoring call sites, which
read `covariate_matrix`, fail with an undefined-name (`NameError`) error
instead of seeing a cleanly absent covariate matrix. -/
theorem claim_C8_covariate_name_bug (df : DataFrame) (label duration : String) :
    fibersCovariatePrologue df [] label duration = some envNoCov ∧
    envNoCov.covariate_matrix = none ∧
    envNoCov.covatiate_matrix = some none ∧
    adaptiveThresholdCovariateArg envNoCov = Except.error "NameError" ∧
    aicCovariateArg envNoCov = Except.error "NameError" := by
  exact ⟨rfl, rfl, rfl, rfl, rfl⟩

/-! ## Claim C7 -/

/-- Claim C7: in both variation strategies (the shared threshold-mutation
step `evolveThresholdMutate`, invoked by `regularPairStep` and
`simplerPairStep` when the threshold is evolving), the offspring's
threshold is mutated exactly when the uniform draw strictly exceeds
`mutation_probability`, and the mutated threshold lies in the inclusive
range `[min_threshold, max_threshold]`; when the draw does not exceed it,
the threshold is left unchanged. -/
theorem claim_C7_threshold_mutation (pmut : ℚ) (minT maxT t : ℤ)
    (py : PyRand) (np0 : NpRand) (h : minT ≤ maxT) :
    ∃ t2 py2 np2, evolveThresholdMutate pmut minT maxT t py np0 = some (t2, py2, np2) ∧
      (pmut < (pyRandFloat py).1 → minT ≤ t2 ∧ t2 ≤ maxT) ∧
      (¬ pmut < (pyRandFloat py).1 → t2 = t ∧ np2 = np0) := by
  unfold evolveThresholdMutate
  by_cases hv : pmut < (pyRandFloat py).1
  · rw [if_pos hv]
    have hrange : ¬ maxT + 1 ≤ minT := by omega
    have htn : (0:ℤ) < maxT + 1 - minT := by omega
    have htn2 : 0 < (maxT + 1 - minT).toNat := by omega
    have hnpr : npRandIntRange minT (maxT + 1) np0 =
        some (minT + ((npNext np0).1 % (maxT + 1 - minT).toNat : ℕ), (npNext np0).2) := by
      simp [npRandIntRange, hrange]
    rw [hnpr]
    refine ⟨minT + ((npNext np0).1 % (maxT + 1 - minT).toNat : ℕ), (pyRandFloat py).2,
      (npNext np0).2, rfl, ?_, ?_⟩
    · intro _
      have hmod : (npNext np0).1 % (maxT + 1 - minT).toNat < (maxT + 1 - minT).toNat :=
        Nat.mod_lt _ htn2
      have : ((npNext np0).1 % (maxT + 1 - minT).toNat : ℤ) < maxT + 1 - minT := by
        have := Int.toNat_of_nonneg (le_of_lt htn)
        omega
      omega
    · intro hcon; exact absurd hv hcon
  · rw [if_neg hv]
    exact ⟨t, (pyRandFloat py).2, np0, rfl, fun hcon => absurd hcon hv, fun _ => ⟨rfl, rfl⟩⟩

/-- Witness for claim C7's theorem at a concrete input. -/
theorem claim_C7_witness :
    ∃ t2 py2 np2, evolveThresholdMutate (1/2) 1 3 2 ⟨0⟩ ⟨0⟩ = some (t2, py2, np2) ∧
      ((1:ℚ)/2 < (pyRandFloat ⟨0⟩).1 → 1 ≤ t2 ∧ t2 ≤ 3) ∧
      (¬ (1:ℚ)/2 < (pyRandFloat ⟨0⟩).1 → t2 = 2 ∧ np2 = ⟨0⟩) :=
  claim_C7_threshold_mutation (1/2) 1 3 2 ⟨0⟩ ⟨0⟩ (by decide)

/-! ## Claim C9 -/

/-- The Regular offspring loop ignores the incoming `random`-module state
whenever at least one replacement set is produced (tournament selection
reseeds at the start of every iteration); the offspring list and final
numpy state never depend on it. -/
theorem cmLoopRegular_py_independent (feature_list : List String)
    (pop : List (String × BIN)) (pcross pmut : ℚ) (t : ℤ) (ev : Bool)
    (mn mx : ℤ) (seeds : List ℕ) (off : List BIN) (py py2 : PyRand) (np0 : NpRand) :
    (cmLoopRegular feature_list pop pcross pmut t ev mn mx seeds off py np0).map
      (fun r => r.1) =
    (cmLoopRegular feature_list pop pcross pmut t ev mn mx seeds off py2 np0).map
      (fun r => r.1) := by
  cases seeds with
  | nil => simp [cmLoopRegular]
  | cons s rest => rfl

/-- Claim C9: both variation operators are deterministic in their seed.
In the embedding the global generator states are explicit arguments, so
the property reads: for every fixed population, feature list, parameters
and seed, two invocations from arbitrary (distinct) ambient generator
states produce identical offspring lists (the Simple strategy even
returns identical final states, since it reseeds both generators before
any draw). -/
theorem claim_C9_seed_determinism :
    (∀ (maxPop : ℕ) (e : ℚ) (fl : List String) (pop : List (String × BIN))
      (pc pm : ℚ) (seed : ℕ) (t : ℤ) (ev : Bool) (mn mx : ℤ)
      (py1 py2 : PyRand) (np1 np2 : NpRand),
      (crossover_and_mutation_regular maxPop e fl pop pc pm seed t ev mn mx py1 np1).map
        (fun r => r.1) =
      (crossover_and_mutation_regular maxPop e fl pop pc pm seed t ev mn mx py2 np2).map
        (fun r => r.1)) ∧
    (∀ (maxPop : ℕ) (e : ℚ) (fl : List String) (pop : List (String × BIN))
      (pc pm : ℚ) (seed : ℕ) (t : ℤ) (ev : Bool) (mn mx : ℤ)
      (py1 py2 : PyRand) (np1 np2 : NpRand),
      crossover_and_mutation_new_simpler maxPop e fl pop pc pm seed t ev mn mx py1 np1 =
      crossover_and_mutation_new_simpler maxPop e fl pop pc pm seed t ev mn mx py2 np2) := by
  constructor
  · intro maxPop e fl pop pc pm seed t ev mn mx py1 py2 np1 np2
    rcases hnp : npRandInts (fl.length * fl.length)
        (numReplacementSets maxPop e * 8) (npSeed seed) with _ | ⟨rs, npx⟩
    · simp [crossover_and_mutation_regular, Option.bind_eq_bind', hnp]
    · simp only [crossover_and_mutation_regular, Option.bind_eq_bind', hnp,
        Option.some_bind]
      exact cmLoopRegular_py_independent fl pop pc pm t ev mn mx _ [] py1 py2 npx
  · intro maxPop e fl pop pc pm seed t ev mn mx py1 py2 np1 np2
    rfl

theorem getD_choice_mem (l : List String) (py : PyRand) (h : 0 < l.length) :
    l.getD (pyChoiceIdx l.length py).1 "" ∈ l := by
  have hlt := pyChoiceIdx_lt l.length py h
  rw [List.getD_eq_getElem _ _ hlt]
  exact List.getElem_mem hlt

theorem balanceGo1_spec (fuel : ℕ) :
    ∀ (o1 o2 : List String) (py : PyRand),
      (balanceGo1 fuel o1 o2 py).1.length + (balanceGo1 fuel o1 o2 py).2.1.length
        = o1.length + o2.length ∧
      (o1.length ≤ fuel →
        (balanceGo1 fuel o1 o2 py).1.length ≤ (balanceGo1 fuel o1 o2 py).2.1.length) := by
  induction fuel with
  | zero =>
    intro o1 o2 py
    exact ⟨rfl, fun h => by simp [balanceGo1]; omega⟩
  | succ n ih =>
    intro o1 o2 py
    by_cases hg : o2.length < o1.length
    · have hpos : 0 < o1.length := by omega
      have hmem := getD_choice_mem o1 py hpos
      have h2 := List.length_erase_of_mem hmem
      simp only [balanceGo1, if_pos hg]
      obtain ⟨ihsum, ihle⟩ := ih (o1.erase (o1.getD (pyChoiceIdx o1.length py).1 ""))
        (o2 ++ [o1.getD (pyChoiceIdx o1.length py).1 ""]) (pyChoiceIdx o1.length py).2
      constructor
      · rw [ihsum, h2]
        simp [List.length_append]
        omega
      · intro hf
        exact ihle (by omega)
    · constructor
      · simp [balanceGo1, if_neg hg]
      · intro _
        simp only [balanceGo1, if_neg hg]
        omega

theorem balanceGo2_spec (fuel : ℕ) :
    ∀ (o1 o2 : List String) (py : PyRand),
      (balanceGo2 fuel o1 o2 py).1.length + (balanceGo2 fuel o1 o2 py).2.1.length
        = o1.length + o2.length ∧
      (o2.length ≤ fuel →
        (balanceGo2 fuel o1 o2 py).2.1.length ≤ (balanceGo2 fuel o1 o2 py).1.length ∧
        ((balanceGo2 fuel o1 o2 py).1.length : ℤ) - (balanceGo2 fuel o1 o2 py).2.1.length
          ≤ max 1 ((o1.length : ℤ) - o2.length)) := by
  induction fuel with
  | zero =>
    intro o1 o2 py
    refine ⟨rfl, fun h => ?_⟩
    have : o2.length = 0 := by omega
    simp only [balanceGo1, balanceGo2]
    constructor
    · omega
    · have hle : ((o1.length : ℤ) - o2.length) ≥ 1 ∨ o1.length ≤ o2.length := by omega
      rcases hle with hle | hle
      · exact le_trans (le_refl _) (le_max_right _ _)
      · have : (o1.length : ℤ) - o2.length ≤ 1 := by omega
        exact le_trans this (le_max_left _ _)
  | succ n ih =>
    intro o1 o2 py
    by_cases hg : o1.length < o2.length
    · have hpos : 0 < o2.length := by omega
      have hmem := getD_choice_mem o2 py hpos
      have h2 := List.length_erase_of_mem hmem
      simp only [balanceGo2, if_pos hg]
      obtain ⟨ihsum, ihrest⟩ := ih (o1 ++ [o2.getD (pyChoiceIdx o2.length py).1 ""])
        (o2.erase (o2.getD (pyChoiceIdx o2.length py).1 "")) (pyChoiceIdx o2.length py).2
      constructor
      · rw [ihsum, h2]
        simp [List.length_append]
        omega
      · intro hf
        obtain ⟨hle, hdiff⟩ := ihrest (by omega)
        refine ⟨hle, le_trans hdiff ?_⟩
        have hlen : (o1 ++ [o2.getD (pyChoiceIdx o2.length py).1 ""]).length
            = o1.length + 1 := by simp
        rw [hlen, h2]
        have hcase : (o1.length : ℤ) - o2.length ≤ -1 := by omega
        have : ((o1.length + 1 : ℕ) : ℤ) - ((o2.length - 1 : ℕ) : ℤ)
            = (o1.length : ℤ) - o2.length + 2 := by omega
        rw [this]
        simp only [le_max_iff]
        omega
    · refine ⟨by simp [balanceGo2, if_neg hg], fun _ => ⟨?_, ?_⟩⟩
      · simp only [balanceGo2, if_neg hg]
        omega
      · simp only [balanceGo2, if_neg hg]
        rcases le_or_lt ((o1.length : ℤ) - o2.length) 1 with hle | hle
        · exact le_trans hle (le_max_left _ _)
        · exact le_max_right _ _

/-- Each crossover pass distributes every parent feature to exactly one
of the two accumulators. -/
theorem crossoverOneParent_length (pcross : ℚ) (pf : List String) :
    ∀ (py : PyRand),
      (crossoverOneParent pcross pf py).1.length +
        (crossoverOneParent pcross pf py).2.1.length = pf.length := by
  suffices h : ∀ (acc : List String × List String × PyRand),
      (pf.foldl (fun acc f =>
        if pcross > (pyRandFloat acc.2.2).1 then (acc.1, acc.2.1 ++ [f], (pyRandFloat acc.2.2).2)
        else (acc.1 ++ [f], acc.2.1, (pyRandFloat acc.2.2).2)) acc).1.length +
      (pf.foldl (fun acc f =>
        if pcross > (pyRandFloat acc.2.2).1 then (acc.1, acc.2.1 ++ [f], (pyRandFloat acc.2.2).2)
        else (acc.1 ++ [f], acc.2.1, (pyRandFloat acc.2.2).2)) acc).2.1.length
        = acc.1.length + acc.2.1.length + pf.length by
    intro py
    have := h ([], [], py)
    simpa [crossoverOneParent] using this
  induction pf with
  | nil => intro acc; simp
  | cons f rest ih =>
    intro acc
    simp only [List.foldl_cons]
    by_cases hp : pcross > (pyRandFloat acc.2.2).1
    · rw [if_pos hp] at *
      rw [ih]
      simp [List.length_append]
      omega
    · rw [if_neg hp] at *
      rw [ih]
      simp [List.length_append]
      omega

theorem crossoverDistribute_length (pcross : ℚ) (p1 p2 : List String) (py : PyRand) :
    (crossoverDistribute pcross p1 p2 py).1.length +
      (crossoverDistribute pcross p1 p2 py).2.1.length = p1.length + p2.length := by
  unfold crossoverDistribute
  dsimp only
  simp only [List.length_append]
  have h1 := crossoverOneParent_length pcross p1 py
  have h2 := crossoverOneParent_length pcross p2 (crossoverOneParent pcross p1 py).2.2
  omega

/-! ## Claim C6 -/

/-- Claim C6: in the Regular strategy, the size-balancing loops after
uniform crossover terminate (their fuel, proved sufficient by
`balanceGo1_spec`/`balanceGo2_spec`, bounds the number of passes) and
leave the two offspring with sizes differing by at most 1 — offspring 1
at least as large as offspring 2 — with equality whenever the parents'
total feature count is even; the total feature count is preserved from
the parents through crossover and balancing. -/
theorem claim_C6_size_balance (pcross : ℚ) (p1 p2 : List String) (py : PyRand)
    (o1 o2 : List String) (py1 : PyRand)
    (hc : crossoverDistribute pcross p1 p2 py = (o1, o2, py1))
    (a b : List String) (py2 : PyRand)
    (hb1 : balanceLoop1 o1 o2 py1 = (a, b, py2))
    (a2 b2 : List String) (py3 : PyRand)
    (hb2 : balanceLoop2 a b py2 = (a2, b2, py3)) :
    a2.length + b2.length = p1.length + p2.length ∧
    b2.length ≤ a2.length ∧ a2.length ≤ b2.length + 1 ∧
    (Even (p1.length + p2.length) → a2.length = b2.length) := by
  have hcl := crossoverDistribute_length pcross p1 p2 py
  rw [hc] at hcl
  simp only at hcl
  have h1 := balanceGo1_spec o1.length o1 o2 py1
  rw [show balanceGo1 o1.length o1 o2 py1 = balanceLoop1 o1 o2 py1 from rfl, hb1] at h1
  simp only at h1
  obtain ⟨h1sum, h1le⟩ := h1
  have h1le := h1le (le_refl _)
  have h2 := balanceGo2_spec b.length a b py2
  rw [show balanceGo2 b.length a b py2 = balanceLoop2 a b py2 from rfl, hb2] at h2
  simp only at h2
  obtain ⟨h2sum, h2rest⟩ := h2
  obtain ⟨h2le, h2diff⟩ := h2rest (le_refl _)
  have hmax : max 1 ((a.length : ℤ) - b.length) = 1 := by
    have : (a.length : ℤ) - b.length ≤ 0 := by omega
    omega
  rw [hmax] at h2diff
  refine ⟨by omega, by omega, by omega, ?_⟩
  intro heven
  obtain ⟨m, hm⟩ := heven
  omega

/-- Witness for claim C6's theorem at a concrete crossover of parents
`["x", "y"]` and `["z"]`. -/
theorem claim_C6_witness :
    crossoverDistribute (1/2) ["x", "y"] ["z"] ⟨0⟩ = (["y", "z"], ["x"], ⟨654583775⟩) ∧
    balanceLoop1 ["y", "z"] ["x"] ⟨654583775⟩ = (["z"], ["x", "y"], ⟨1449466924⟩) ∧
    balanceLoop2 ["z"] ["x", "y"] ⟨1449466924⟩ = (["z", "y"], ["x"], ⟨229283573⟩) ∧
    (["z", "y"] : List String).length + (["x"] : List String).length = 3 ∧
    (["x"] : List String).length ≤ (["z", "y"] : List String).length ∧
    (["z", "y"] : List String).length ≤ (["x"] : List String).length + 1 ∧
    (Even ((["x", "y"] : List String).length + (["z"] : List String).length) →
      (["z", "y"] : List String).length = (["x"] : List String).length) := by
  have hc : crossoverDistribute (1/2) ["x", "y"] ["z"] ⟨0⟩
      = (["y", "z"], ["x"], ⟨654583775⟩) := by decide
  have hb1 : balanceLoop1 ["y", "z"] ["x"] ⟨654583775⟩
      = (["z"], ["x", "y"], ⟨1449466924⟩) := by decide
  have hb2 : balanceLoop2 ["z"] ["x", "y"] ⟨1449466924⟩
      = (["z", "y"], ["x"], ⟨229283573⟩) := by decide
  have h := claim_C6_size_balance (1/2) ["x", "y"] ["z"] ⟨0⟩ _ _ _ hc _ _ _ hb1 _ _ _ hb2
  exact ⟨hc, hb1, hb2, h.1, h.2.1, h.2.2.1, h.2.2.2⟩

/-! ## Claim C5 -/

/-- Claim C5: tournament selection samples, without replacement,
`round(5%)` of the population unless that rounds below 2 — as it does for
a population of 3, where `round(0.15) = 0` — in which case it samples
`round(50%)`; for every population of exactly 3 bins the 50% branch
yields a sample of 2, and the two returned parents are the two
best-scoring bins of the sample: distinct members of the population, in
descending score order, bounding every sampled bin's score. -/
theorem claim_C5_tournament (pop : List (String × BIN)) (seed : ℕ)
    (h3 : pop.length = 3) (hnd : (pop.map (fun kb => kb.2)).Nodup) :
    pyRound ((5 : ℚ)/100 * 3) < 2 ∧
    tournamentSampleSize 3 = (pyRound ((1 : ℚ)/2 * 3)).toNat ∧
    tournamentSampleSize 3 = 2 ∧
    ∃ samples r1 p0 p1,
      pySample (pop.map (fun kb => kb.2)) 2 (pySeed seed) = some (samples, r1) ∧
      tournament_selection_parent_bins pop seed = some ([p0, p1], r1) ∧
      samples.length = 2 ∧
      p0 ∈ samples ∧ p1 ∈ samples ∧ p0 ≠ p1 ∧
      (∀ b ∈ samples, b ∈ pop.map (fun kb => kb.2)) ∧
      p1.score ≤ p0.score ∧
      (∀ b ∈ samples, b.score ≤ p0.score) := by
  refine ⟨by decide, by decide, by decide, ?_⟩
  have hvlen : (pop.map (fun kb => kb.2)).length = 3 := by simp [h3]
  have hk : tournamentSampleSize (pop.map (fun kb => kb.2)).length = 2 := by
    rw [hvlen]; decide
  have hs := pySample_some (pop.map (fun kb => kb.2)) 2 (pySeed seed) (by omega)
  set vals := pop.map (fun kb => kb.2) with hvals
  set samples := (sampleGo 2 vals (pySeed seed)).1 with hsamp
  set r1 := (sampleGo 2 vals (pySeed seed)).2 with hr1
  have hslen : samples.length = 2 := sampleGo_length 2 vals (pySeed seed) (by omega)
  have hsnd : samples.Nodup := sampleGo_nodup 2 vals (pySeed seed) (by omega) hnd
  have hssub : ∀ x ∈ samples, x ∈ vals := sampleGo_subset 2 vals (pySeed seed) (by omega)
  have hperm : (sortDesc samples).Perm samples := List.perm_insertionSort binGE samples
  have hsortlen : (sortDesc samples).length = 2 := by
    rw [hperm.length_eq, hslen]
  have hsortnd : (sortDesc samples).Nodup := hperm.nodup_iff.mpr hsnd
  have hsorted : List.Sorted binGE (sortDesc samples) :=
    List.sorted_insertionSort binGE samples
  rcases hq : sortDesc samples with _ | ⟨q0, rest⟩
  · rw [hq] at hsortlen; simp at hsortlen
  rcases hrest : rest with _ | ⟨q1, rest2⟩
  · rw [hq, hrest] at hsortlen; simp at hsortlen
  rcases hrest2 : rest2 with _ | ⟨q2, rest3⟩
  swap
  · rw [hq, hrest, hrest2] at hsortlen; simp at hsortlen
  subst hrest hrest2
  have hmem : ∀ b, b ∈ samples ↔ b ∈ [q0, q1] := by
    intro b
    rw [← hq]
    exact hperm.mem_iff.symm
  refine ⟨samples, r1, q0, q1, by rw [hs], ?_, hslen, ?_, ?_, ?_, hssub, ?_, ?_⟩
  · unfold tournament_selection_parent_bins
    dsimp only
    rw [hk, hs]
    simp only [Option.bind_eq_bind', Option.some_bind]
    rw [← hsamp, hq]
  · exact (hmem q0).mpr (List.mem_cons_self _ _)
  · exact (hmem q1).mpr (List.mem_cons_of_mem _ (List.mem_cons_self _ _))
  · rw [hq] at hsortnd
    intro hcon
    rw [hcon] at hsortnd
    simp at hsortnd
  · rw [hq] at hsorted
    exact (List.sorted_cons.mp hsorted).1 q1 (List.mem_cons_self _ _)
  · have hge : q1.score ≤ q0.score := by
      rw [hq] at hsorted
      exact (List.sorted_cons.mp hsorted).1 q1 (List.mem_cons_self _ _)
    intro b hb
    rcases List.mem_cons.mp ((hmem b).mp hb) with rfl | hb1
    · exact le_refl _
    · rw [List.mem_singleton.mp hb1]
      exact hge

/-- Concrete population of 3 distinct bins for claim C5's witness. -/
def popC5 : List (String × BIN) :=
  [("Bin 1", ⟨["a"], 0, 3, "Bin 1", true⟩),
   ("Bin 2", ⟨["b"], 0, 2, "Bin 2", true⟩),
   ("Bin 3", ⟨["c"], 0, 1, "Bin 3", true⟩)]

/-- Witness for claim C5's theorem at the concrete population `popC5`. -/
theorem claim_C5_witness :
    pyRound ((5 : ℚ)/100 * 3) < 2 ∧
    tournamentSampleSize 3 = (pyRound ((1 : ℚ)/2 * 3)).toNat ∧
    tournamentSampleSize 3 = 2 ∧
    ∃ samples r1 p0 p1,
      pySample (popC5.map (fun kb => kb.2)) 2 (pySeed 11) = some (samples, r1) ∧
      tournament_selection_parent_bins popC5 11 = some ([p0, p1], r1) ∧
      samples.length = 2 ∧
      p0 ∈ samples ∧ p1 ∈ samples ∧ p0 ≠ p1 ∧
      (∀ b ∈ samples, b ∈ popC5.map (fun kb => kb.2)) ∧
      p1.score ≤ p0.score ∧
      (∀ b ∈ samples, b.score ≤ p0.score) :=
  claim_C5_tournament popC5 11 (by decide) (by decide)

/-! ## Claim C3 -/

/-- Concrete population for claim C3: three single-feature bins over the
one-feature universe `["a"]`. -/
def popC3 : List (String × BIN) :=
  [("Bin 1", ⟨["a"], 0, 3, "Bin 1", true⟩),
   ("Bin 2", ⟨["a"], 0, 2, "Bin 2", true⟩),
   ("Bin 3", ⟨["a"], 0, 1, "Bin 3", true⟩)]

/-- Claim C3, counterexample: Simple-strategy mutation does NOT only grow
or preserve the offspring.  With `mutation_probability = 1` (every draw
triggers) and an offspring equal to the full one-feature universe, the
mutation loop drops the present feature `"a"` entirely — the claim says
that for a full-universe offspring no insertion occurs and the present
feature is kept.  The full operator exhibits the same loss: both emitted
offspring are empty although both parents held `"a"`. -/
theorem claim_C3_counterexample :
    (simpleMutLoop 1 1 1 [] ["a"] 0 ⟨123⟩).map (fun r => r.1) = some [] ∧
    "a" ∈ (["a"] : List String) ∧
    (crossover_and_mutation_new_simpler 4 (1/2) ["a"] popC3 1 1 7 0 false 0 0 ⟨5⟩ ⟨6⟩).map
      (fun r => r.1.map (fun b => b.featureList)) = some [[], []] := by
  refine ⟨by decide, by decide, by decide⟩

/-- Claim C3, amended: the Simple-strategy per-offspring mutation
processes each present feature once; a feature is kept unmutated with
probability `1 - p_mut`, and on mutation it is either dropped or — when
the half coin succeeds and the offspring is smaller than the universe —
kept with one not-yet-present pool feature inserted right before it.
Consequently the surviving original features form a subsequence of the
offspring (never reordered or duplicated), every emitted feature comes
from the offspring or from the not-present pool, and when the offspring
already equals the full universe no insertion occurs (the result is a
subsequence of the offspring); mutation may therefore shrink the bin. -/
theorem claim_C3_amended (pmut : ℚ) (oLen lLen : ℕ) (fni : List String) :
    ∀ (features : List String) (idx0 : ℕ) (py : PyRand)
      (out : List String) (idx2 : ℕ) (py2 : PyRand),
      (∀ x ∈ features, x ∉ fni) →
      simpleMutLoop pmut oLen lLen fni features idx0 py = some (out, idx2, py2) →
      (out.filter (fun x => decide (x ∉ fni))).Sublist features ∧
      (∀ x ∈ out, x ∈ features ∨ x ∈ fni) ∧
      (¬ oLen < lLen → out.Sublist features) := by
  intro features
  induction features with
  | nil =>
    intro idx0 py out idx2 py2 hdisj hres
    simp only [simpleMutLoop, Option.some_inj, Prod.mk.injEq] at hres
    rw [← hres.1]
    exact ⟨List.nil_sublist _, by simp, fun _ => List.nil_sublist _⟩
  | cons f rest ih =>
    intro idx0 py out idx2 py2 hdisj hres
    have hfd : f ∉ fni := hdisj f (List.mem_cons_self _ _)
    have hdisj2 : ∀ x ∈ rest, x ∉ fni :=
      fun x hx => hdisj x (List.mem_cons_of_mem _ hx)
    simp only [simpleMutLoop] at hres
    by_cases hm : pmut > (pyRandFloat py).1
    · rw [if_pos hm] at hres
      by_cases hc : (1 : ℚ)/2 > (pyRandFloat (pyRandFloat py).2).1 ∧ oLen < lLen
      · rw [if_pos hc] at hres
        rcases hidx : decide (idx0 < fni.length) with _ | _
        · have hidx2 : ¬ idx0 < fni.length := of_decide_eq_false hidx
          rw [dif_neg hidx2] at hres
          exact absurd hres (by simp)
        · have hidx2 : idx0 < fni.length := of_decide_eq_true hidx
          rw [dif_pos hidx2] at hres
          rcases hrec : simpleMutLoop pmut oLen lLen fni rest (idx0 + 1)
              (pyRandFloat (pyRandFloat py).2).2 with _ | ⟨o2, i2, p2⟩
          · rw [hrec] at hres; exact absurd hres (by simp)
          · rw [hrec] at hres
            simp only [Option.bind_eq_bind', Option.some_bind, Option.some_inj, Prod.mk.injEq] at hres
            obtain ⟨ih1, ih2, ih3⟩ := ih (idx0 + 1) _ o2 i2 p2 hdisj2 hrec
            have hpoolmem : fni.get ⟨idx0, hidx2⟩ ∈ fni := List.get_mem fni idx0 hidx2
            constructor
            · rw [← hres.1]
              have : ((fni.get ⟨idx0, hidx2⟩ :: f :: o2).filter
                  (fun x => decide (x ∉ fni))) = f :: (o2.filter (fun x => decide (x ∉ fni))) := by
                simp only [List.filter_cons]
                rw [if_neg (by simpa using hpoolmem), if_pos (by simpa using hfd)]
              rw [this]
              exact ih1.cons₂ f
            · refine ⟨?_, fun hcon => absurd hc.2 hcon⟩
              intro x hx
              rw [← hres.1] at hx
              rcases List.mem_cons.mp hx with rfl | hx
              · exact Or.inr hpoolmem
              · rcases List.mem_cons.mp hx with rfl | hx
                · exact Or.inl (List.mem_cons_self _ _)
                · rcases ih2 x hx with h | h
                  · exact Or.inl (List.mem_cons_of_mem _ h)
                  · exact Or.inr h
      · rw [if_neg hc] at hres
        rcases hrec : simpleMutLoop pmut oLen lLen fni rest idx0
            (pyRandFloat (pyRandFloat py).2).2 with _ | ⟨o2, i2, p2⟩
        · rw [hrec] at hres; exact absurd hres (by simp)
        · rw [hrec] at hres
          simp only [Option.bind_eq_bind', Option.some_bind, Option.some_inj, Prod.mk.injEq] at hres
          obtain ⟨ih1, ih2, ih3⟩ := ih idx0 _ o2 i2 p2 hdisj2 hrec
          rw [← hres.1]
          refine ⟨ih1.cons f, ?_, ?_⟩
          · intro x hx
            rcases ih2 x hx with h | h
            · exact Or.inl (List.mem_cons_of_mem _ h)
            · exact Or.inr h
          · intro hfull
            exact (ih3 hfull).cons f
    · rw [if_neg hm] at hres
      rcases hrec : simpleMutLoop pmut oLen lLen fni rest idx0
          (pyRandFloat py).2 with _ | ⟨o2, i2, p2⟩
      · rw [hrec] at hres; exact absurd hres (by simp)
      · rw [hrec] at hres
        simp only [Option.bind_eq_bind', Option.some_bind, Option.some_inj, Prod.mk.injEq] at hres
        obtain ⟨ih1, ih2, ih3⟩ := ih idx0 _ o2 i2 p2 hdisj2 hrec
        rw [← hres.1]
        constructor
        · have : ((f :: o2).filter (fun x => decide (x ∉ fni)))
              = f :: (o2.filter (fun x => decide (x ∉ fni))) := by
            simp only [List.filter_cons]
            rw [if_pos (by simpa using hfd)]
          rw [this]
          exact ih1.cons₂ f
        · refine ⟨?_, fun hfull => (ih3 hfull).cons₂ f⟩
          intro x hx
          rcases List.mem_cons.mp hx with rfl | hx
          · exact Or.inl (List.mem_cons_self _ _)
          · rcases ih2 x hx with h | h
            · exact Or.inl (List.mem_cons_of_mem _ h)
            · exact Or.inr h

/-- Witness for claim C3's amended theorem at a concrete mutation run. -/
theorem claim_C3_amended_witness :
    ∃ out idx2 py2,
      simpleMutLoop (1/2) 1 2 ["b"] ["a"] 0 ⟨0⟩ = some (out, idx2, py2) ∧
      (out.filter (fun x => decide (x ∉ (["b"] : List String)))).Sublist ["a"] ∧
      (∀ x ∈ out, x ∈ (["a"] : List String) ∨ x ∈ (["b"] : List String)) ∧
      (¬ 1 < 2 → out.Sublist ["a"]) := by
  have h := claim_C3_amended (1/2) 1 2 ["b"] ["a"] 0 ⟨0⟩ [] 0 ⟨1406932606⟩
    (by decide) (by decide)
  exact ⟨[], 0, ⟨1406932606⟩, by decide, h.1, h.2.1, h.2.2⟩

/-! ## Claim C10 -/

theorem getCol_length {df : DataFrame} (hwf : df.WF) {f : String} {c : List ℚ}
    (h : getCol df f = some c) : c.length = df.nRows := by
  simp only [getCol, Option.map_eq_some'] at h
  obtain ⟨a, ha, hc⟩ := h
  have := hwf a (List.mem_of_find?_eq_some ha)
  rw [← hc]
  exact this

theorem colVal_eq {df : DataFrame} {f : String} {c : List ℚ}
    (h : getCol df f = some c) (j : ℕ) : colVal df f j = c.getD j 0 := by
  simp [colVal, h]

theorem binSum_go_spec (df : DataFrame) (hwf : df.WF) (features : List String) :
    ∀ acc : List ℚ, acc.length = df.nRows →
      (∀ f ∈ features, ∃ c, getCol df f = some c) →
      ∃ out, (features.foldlM (fun acc f =>
          (getCol df f).map (fun col => List.zipWith (· + ·) acc col)) acc) = some out ∧
        out.length = df.nRows ∧
        ∀ j, j < df.nRows →
          out.getD j 0 = acc.getD j 0 + (features.map (fun f => colVal df f j)).sum := by
  induction features with
  | nil =>
    intro acc hlen hmem
    exact ⟨acc, rfl, hlen, fun j hj => by simp⟩
  | cons f rest ih =>
    intro acc hlen hmem
    obtain ⟨c, hc⟩ := hmem f (List.mem_cons_self _ _)
    have hclen : c.length = df.nRows := getCol_length hwf hc
    have hzlen : (List.zipWith (· + ·) acc c).length = df.nRows := by
      rw [List.length_zipWith, hlen, hclen]
      omega
    obtain ⟨out, hout, holen, hoval⟩ := ih (List.zipWith (· + ·) acc c) hzlen
      (fun g hg => hmem g (List.mem_cons_of_mem _ hg))
    refine ⟨out, ?_, holen, ?_⟩
    · simp only [List.foldlM_cons, hc, Option.map_some', Option.bind_eq_bind',
        Option.some_bind]
      exact hout
    · intro j hj
      rw [hoval j hj]
      have hjacc : j < acc.length := by omega
      have hjc : j < c.length := by omega
      have hjz : j < (List.zipWith (· + ·) acc c).length := by omega
      rw [List.getD_eq_getElem _ _ hjz, List.getElem_zipWith,
        ← List.getD_eq_getElem acc 0 hjacc, ← List.getD_eq_getElem c 0 hjc]
      rw [List.map_cons, List.sum_cons, colVal_eq hc]
      ring

theorem binSum_spec (df : DataFrame) (hwf : df.WF) (features : List String)
    (hmem : ∀ f ∈ features, ∃ c, getCol df f = some c) :
    ∃ out, binSum df features = some out ∧
      out.length = df.nRows ∧
      ∀ j, j < df.nRows →
        out.getD j 0 = (features.map (fun f => colVal df f j)).sum := by
  obtain ⟨out, hout, holen, hval⟩ := binSum_go_spec df hwf features
    (List.replicate df.nRows 0) (List.length_replicate _ _) hmem
  refine ⟨out, hout, holen, fun j hj => ?_⟩
  rw [hval j hj]
  have : (List.replicate df.nRows (0 : ℚ)).getD j 0 = 0 := by
    rcases lt_or_ge j df.nRows with h | h
    · rw [List.getD_eq_getElem _ _ (by simpa using h)]
      simp
    · rw [List.getD_eq_default _ _ (by simpa using h)]
  rw [this, zero_add]

theorem setCol_append {df : DataFrame} {name : String} {v : List ℚ}
    (h : ∀ c ∈ df.cols, (c : String × List ℚ).1 ≠ name) :
    setCol df name v = { df with cols := df.cols ++ [(name, v)] } := by
  unfold setCol
  rw [if_neg]
  simp only [List.any_eq_true, not_exists, not_and]
  intro c hc
  simp [h c hc]

/-- Claim C10: `grouped_feature_matrix` returns a table with one column
per bin whose entry at each instance equals the elementwise sum of that
bin's member features' values (the all-zero column for an empty bin,
since the empty sum is zero), with the label and duration columns
appended unchanged; as a pure function of its arguments it leaves the
input feature matrix and population untouched. -/
theorem claim_C10_aggregator (df : DataFrame) (label duration : String)
    (pop : List (String × BIN)) (hwf : df.WF)
    (hmem : ∀ kb ∈ pop, ∀ f ∈ (kb : String × BIN).2.featureList, ∃ c, getCol df f = some c)
    (lcol dcol : List ℚ)
    (hl : getCol df label = some lcol) (hd : getCol df duration = some dcol)
    (hnames : ∀ kb ∈ pop, (kb : String × BIN).1 ≠ label ∧ kb.1 ≠ duration)
    (hld : label ≠ duration) :
    ∃ out binCols, grouped_feature_matrix df label duration pop = some out ∧
      out.nRows = df.nRows ∧
      out.cols = binCols ++ [(label, lcol), (duration, dcol)] ∧
      binCols.length = pop.length ∧
      ∀ i, ∀ hi : i < pop.length,
        (binCols.getD i ("", [])).1 = (pop.get ⟨i, hi⟩).1 ∧
        (binCols.getD i ("", [])).2.length = df.nRows ∧
        ∀ j, j < df.nRows →
          (binCols.getD i ("", [])).2.getD j 0
            = ((pop.get ⟨i, hi⟩).2.featureList.map (fun f => colVal df f j)).sum := by
  have hmapM : ∃ binCols, pop.mapM (fun kb =>
      (binSum df kb.2.featureList).map (fun col => (kb.1, col))) = some binCols ∧
      binCols.length = pop.length ∧
      (∀ c ∈ binCols, (c : String × List ℚ).1 ≠ label ∧ c.1 ≠ duration) ∧
      ∀ i, ∀ hi : i < pop.length,
        (binCols.getD i ("", [])).1 = (pop.get ⟨i, hi⟩).1 ∧
        (binCols.getD i ("", [])).2.length = df.nRows ∧
        ∀ j, j < df.nRows →
          (binCols.getD i ("", [])).2.getD j 0
            = ((pop.get ⟨i, hi⟩).2.featureList.map (fun f => colVal df f j)).sum := by
    clear hl hd
    induction pop with
    | nil => exact ⟨[], rfl, rfl, by simp, fun i hi => absurd hi (by simp)⟩
    | cons kb rest ih =>
      obtain ⟨col, hcol, hcollen, hcolval⟩ := binSum_spec df hwf kb.2.featureList
        (hmem kb (List.mem_cons_self _ _))
      obtain ⟨bc, hbc, hbclen, hbcnames, hbcval⟩ := ih
        (fun kb2 h2 => hmem kb2 (List.mem_cons_of_mem _ h2))
        (fun kb2 h2 => hnames kb2 (List.mem_cons_of_mem _ h2))
      refine ⟨(kb.1, col) :: bc, ?_, by simp [hbclen], ?_, ?_⟩
      · simp only [List.mapM_cons, hcol, hbc, Option.map_some', Option.bind_eq_bind',
          Option.some_bind, Option.pure_def]
      · intro c hc
        rcases List.mem_cons.mp hc with rfl | hc
        · exact hnames kb (List.mem_cons_self _ _)
        · exact hbcnames c hc
      · intro i hi
        match i with
        | 0 => exact ⟨rfl, hcollen, fun j hj => hcolval j hj⟩
        | n + 1 =>
          have hn : n < rest.length := by simpa using hi
          exact hbcval n hn
  obtain ⟨binCols, hbc, hbclen, hbcnames, hbcval⟩ := hmapM
  have hout : grouped_feature_matrix df label duration pop =
      some (setCol (setCol { nRows := df.nRows, cols := binCols } label lcol)
        duration dcol) := by
    simp only [grouped_feature_matrix, hbc, hl, hd, Option.bind_eq_bind',
      Option.some_bind]
  have hset1 : setCol { nRows := df.nRows, cols := binCols } label lcol =
      { nRows := df.nRows, cols := binCols ++ [(label, lcol)] } := by
    rw [setCol_append (fun c hc => (hbcnames c hc).1)]
  have hset2 : setCol { nRows := df.nRows, cols := binCols ++ [(label, lcol)] }
      duration dcol =
      { nRows := df.nRows, cols := (binCols ++ [(label, lcol)]) ++ [(duration, dcol)] } := by
    rw [setCol_append]
    intro c hc
    rcases List.mem_append.mp hc with hc | hc
    · exact (hbcnames c hc).2
    · rw [List.mem_singleton.mp hc]
      exact hld
  refine ⟨_, binCols, hout, ?_, ?_, hbclen, hbcval⟩
  · rw [hset1, hset2]
  · rw [hset1, hset2]
    simp

/-- Concrete matrix and population (including an empty bin) for claim
C10's witness. -/
def dfC10 : DataFrame :=
  ⟨2, [("a", [1, 2]), ("b", [3, 4]), ("L", [1, 0]), ("D", [5, 6])]⟩

def popC10 : List (String × BIN) :=
  [("Bin 1", BIN.ofList ["a", "b"] 0), ("Bin 2", BIN.ofList [] 0)]

/-- Witness for claim C10's theorem at the concrete matrix `dfC10`. -/
theorem claim_C10_witness :
    ∃ out binCols, grouped_feature_matrix dfC10 "L" "D" popC10 = some out ∧
      out.nRows = dfC10.nRows ∧
      out.cols = binCols ++ [("L", [1, 0]), ("D", [5, 6])] ∧
      binCols.length = popC10.length ∧
      ∀ i, ∀ hi : i < popC10.length,
        (binCols.getD i ("", [])).1 = (popC10.get ⟨i, hi⟩).1 ∧
        (binCols.getD i ("", [])).2.length = dfC10.nRows ∧
        ∀ j, j < dfC10.nRows →
          (binCols.getD i ("", [])).2.getD j 0
            = ((popC10.get ⟨i, hi⟩).2.featureList.map (fun f => colVal dfC10 f j)).sum :=
  claim_C10_aggregator dfC10 "L" "D" popC10
    (by intro c hc; fin_cases hc <;> rfl)
    (by
      intro kb hkb f hf
      fin_cases hkb <;> fin_cases hf <;> exact ⟨_, rfl⟩)
    [1, 0] [5, 6] (by decide) (by decide) (by decide) (by decide)

/-! ## Claim C1 -/

/-- Universe of 7 features for claim C1's concrete generation. -/
def fl7 : List String := ["f1", "f2", "f3", "f4", "f5", "f6", "f7"]

/-- A scored population of 7 singleton bins (target size 7). -/
def popC1 : List (String × BIN) :=
  (List.range 7).map (fun i =>
    ("Bin " ++ toString (i + 1),
     { featureList := [fl7.getD i ""], threshold := 0, score := (7 - i : ℚ),
       name := "Bin " ++ toString (i + 1), seen := true }))

/-- Feature matrix over the 7 features for claim C1's concrete generation. -/
def fmC1 : DataFrame :=
  ⟨1, [("f1", [1]), ("f2", [1]), ("f3", [1]), ("f4", [1]), ("f5", [1]), ("f6", [1]),
       ("f7", [1]), ("L", [1]), ("D", [5])]⟩

/-- One full generation at target size 7 and elitism 1/5: Regular
variation, elite retention, then Repair; returns the repaired
population's size. -/
def c1runPipeline : Option ℕ := do
  let (off, _, _) ← crossover_and_mutation_regular 7 (1/5) fl7 popC1 (1/2) 0 1001 0
    false 0 0 ⟨99⟩ ⟨55⟩
  let combined ← create_next_generation popC1 7 (1/5) off
  let (_, pop) ← regroup_feature_matrix fl7 fmC1 "L" "D" combined 2002 0
  some pop.length

/-- Claim C1, counterexample: with target population size 7 and elitism
1/5 — a configuration section 7 accepts (7 is at least twice the single
elite) — the generation's combined list holds `round(7/5) = 1` elite plus
`2 * int(7 * (4/5) / 2) = 4` offspring, and Repair returns a population
of 5 bins, not the configured 7: repair does not correct the size drift
back to the target. -/
theorem claim_C1_counterexample :
    c1runPipeline = some 5 ∧ (5 : ℕ) ≠ 7 ∧
    (pyRound ((7 : ℚ) * (1/5))).toNat = 1 ∧
    numReplacementSets 7 (1/5) = 2 := by
  refine ⟨by decide, by decide, by decide, by decide⟩

theorem dedupBins_length (l : List BIN) :
    (dedupBins l).1.length + (dedupBins l).2 = l.length := by
  suffices h : ∀ acc : List BIN × ℕ,
      (l.foldl (fun acc b => if listIn b acc.1 then (acc.1, acc.2 + 1)
        else (acc.1 ++ [b], acc.2)) acc).1.length +
      (l.foldl (fun acc b => if listIn b acc.1 then (acc.1, acc.2 + 1)
        else (acc.1 ++ [b], acc.2)) acc).2 = acc.1.length + acc.2 + l.length by
    have := h ([], 0)
    simpa [dedupBins] using this
  induction l with
  | nil => intro acc; simp
  | cons b rest ih =>
    intro acc
    simp only [List.foldl_cons]
    by_cases hb : listIn b acc.1
    · rw [if_pos hb, ih]
      simp
      omega
    · rw [if_neg hb, ih]
      simp [List.length_append]
      omega

theorem dedupBins_sublist (l : List BIN) : ∀ b ∈ (dedupBins l).1, b ∈ l := by
  suffices h : ∀ acc : List BIN × ℕ, ∀ b ∈ (l.foldl (fun acc b => if listIn b acc.1
      then (acc.1, acc.2 + 1) else (acc.1 ++ [b], acc.2)) acc).1,
      b ∈ acc.1 ∨ b ∈ l by
    intro b hb
    rcases h ([], 0) b hb with hc | hc
    · exact absurd hc (List.not_mem_nil b)
    · exact hc
  induction l with
  | nil => intro acc b hb; exact Or.inl hb
  | cons x rest ih =>
    intro acc b hb
    simp only [List.foldl_cons] at hb
    by_cases hx : listIn x acc.1
    · rw [if_pos hx] at hb
      rcases ih (acc.1, acc.2 + 1) b hb with hc | hc
      · exact Or.inl hc
      · exact Or.inr (List.mem_cons_of_mem _ hc)
    · rw [if_neg hx] at hb
      rcases ih (acc.1 ++ [x], acc.2) b hb with hc | hc
      · rcases List.mem_append.mp hc with hc2 | hc2
        · exact Or.inl hc2
        · exact Or.inr (List.mem_cons.mpr (Or.inl (List.mem_singleton.mp hc2)))
      · exact Or.inr (List.mem_cons_of_mem _ hc)

theorem resampleWhile_spec (fl : List String) (replLen : ℕ) (thr : ℤ)
    (fbl : List BIN) :
    ∀ (seeds : List ℕ) (b b2 : BIN), b.featureList.length = replLen →
      resampleWhile fl replLen thr fbl seeds b = some b2 →
      b2.featureList.length = replLen := by
  intro seeds
  induction seeds with
  | nil =>
    intro b b2 hlen hres
    unfold resampleWhile at hres
    by_cases hin : listIn b fbl
    · rw [if_pos hin] at hres
      exact absurd hres (by simp)
    · rw [if_neg hin] at hres
      rw [← Option.some_inj.mp hres]
      exact hlen
  | cons s rest ih =>
    intro b b2 hlen hres
    unfold resampleWhile at hres
    by_cases hin : listIn b fbl
    · rw [if_pos hin] at hres
      rcases hsmp : pySample fl replLen (pySeed s) with _ | ⟨smp, r2⟩
      · rw [hsmp] at hres; exact absurd hres (by simp)
      · rw [hsmp] at hres
        simp only [Option.bind_eq_bind', Option.some_bind] at hres
        exact ih (BIN.ofList smp thr) b2 (pySample_length hsmp) hres
    · rw [if_neg hin] at hres
      rw [← Option.some_inj.mp hres]
      exact hlen

theorem replacementLoop_spec (fl : List String) (replLen : ℕ) (thr : ℤ)
    (seeds : List ℕ) (total : ℕ) :
    ∀ (remaining i : ℕ) (fbl : List BIN) (np : NpRand) (out : List BIN) (np2 : NpRand),
      replacementLoop fl replLen thr seeds total remaining i fbl np = some (out, np2) →
      out.length = fbl.length + remaining ∧
      ((∀ b ∈ fbl, (b : BIN).featureList ≠ []) → 1 ≤ replLen →
        ∀ b ∈ out, (b : BIN).featureList ≠ []) := by
  intro remaining
  induction remaining with
  | zero =>
    intro i fbl np out np2 hres
    simp only [replacementLoop, Option.some_inj, Prod.mk.injEq] at hres
    rw [← hres.1]
    exact ⟨by omega, fun hne _ => hne⟩
  | succ n ih =>
    intro i fbl np out np2 hres
    simp only [replacementLoop] at hres
    rcases hsmp : pySample fl replLen (pySeed (seeds.getD i 0)) with _ | ⟨smp, r2⟩
    · rw [hsmp] at hres; exact absurd hres (by simp)
    rcases hints : npRandInts (fl.length * fl.length) (2 * fbl.length) np
        with _ | ⟨innerSeeds, np1⟩
    · rw [hsmp, hints] at hres
      simp only [Option.bind_eq_bind', Option.some_bind] at hres
      exact absurd hres (by simp)
    rw [hsmp, hints] at hres
    simp only [Option.bind_eq_bind', Option.some_bind] at hres
    rcases hrw : resampleWhile fl replLen thr fbl innerSeeds (BIN.ofList smp thr)
        with _ | replacement
    · rw [hrw] at hres
      exact absurd hres (by simp)
    rw [hrw] at hres
    simp only [Option.some_bind] at hres
    obtain ⟨ihlen, ihne⟩ := ih (i + 1) (fbl ++ [replacement]) np1 out np2 hres
    have hrlen : replacement.featureList.length = replLen :=
      resampleWhile_spec fl replLen thr fbl innerSeeds (BIN.ofList smp thr)
        replacement (pySample_length hsmp) hrw
    constructor
    · rw [ihlen]
      simp [List.length_append]
      omega
    · intro hne h1
      refine ihne ?_ h1
      intro b hb
      rcases List.mem_append.mp hb with hb2 | hb2
      · exact hne b hb2
      · rw [List.mem_singleton.mp hb2]
        intro hcon
        rw [hcon] at hrlen
        simp at hrlen
        omega

theorem length_filter_add_length_filter_not {α : Type} (l : List α) (p : α → Prop)
    [DecidablePred p] :
    (l.filter (fun b => p b)).length + (l.filter (fun b => ¬ p b)).length = l.length := by
  induction l with
  | nil => simp
  | cons a t ih =>
    simp only [List.filter_cons]
    by_cases hp : p a
    · rw [if_pos (by simp [hp]), if_neg (by simp [hp])]
      simp only [List.length_cons]
      omega
    · rw [if_neg (by simp [hp]), if_pos (by simp [hp])]
      simp only [List.length_cons]
      omega

theorem one_le_castSum {l : List ℕ} (h1 : ∀ x ∈ l, 1 ≤ x) :
    (l.length : ℚ) ≤ (l.map (fun n : ℕ => (n : ℚ))).sum := by
  induction l with
  | nil => simp
  | cons a t ih =>
    simp only [List.map_cons, List.sum_cons, List.length_cons]
    have ha : (1 : ℚ) ≤ a := by
      exact_mod_cast h1 a (List.mem_cons_self _ _)
    have ht := ih (fun x hx => h1 x (List.mem_cons_of_mem _ hx))
    have hc : ((t.length + 1 : ℕ) : ℚ) = (t.length : ℚ) + 1 := by
      push_cast
      ring
    rw [hc]
    linarith

theorem one_le_ratMean {l : List ℕ} (hne : l.length ≠ 0) (h1 : ∀ x ∈ l, 1 ≤ x) :
    1 ≤ ratMean l := by
  unfold ratMean
  have hlen : (0 : ℚ) < l.length := by
    have : 0 < l.length := Nat.pos_of_ne_zero hne
    exact_mod_cast this
  rw [one_le_div hlen]
  exact one_le_castSum h1

theorem inBinRepair_spec (fl : List String) (seeds2 : List ℕ) :
    ∀ (bins : List BIN) (counter : ℕ) (out : List BIN),
      inBinRepair fl seeds2 bins counter = some out →
      out.length = bins.length ∧
      (fl.Nodup → ∀ b2 ∈ out, (b2 : BIN).featureList.Nodup) ∧
      ((∀ b ∈ bins, (b : BIN).featureList ≠ []) → ∀ b2 ∈ out, (b2 : BIN).featureList ≠ []) := by
  intro bins
  induction bins with
  | nil =>
    intro counter out hres
    simp only [inBinRepair, Option.some_inj] at hres
    rw [← hres]
    exact ⟨rfl, fun _ b2 hb2 => absurd hb2 (List.not_mem_nil b2),
      fun _ b2 hb2 => absurd hb2 (List.not_mem_nil b2)⟩
  | cons b rest ih =>
    intro counter out hres
    simp only [inBinRepair] at hres
    have hmain : ∀ (binRep : List String) (counter2 : ℕ),
        (∀ x ∈ binRep, x ∈ pyUnique b.featureList ∨
          x ∈ fl.filter (fun f => f ∉ b.featureList)) →
        (fl.Nodup → binRep.Nodup) →
        (b.featureList ≠ [] → binRep ≠ []) →
        ∀ rest2 : List BIN,
        (do
          let b2 :=
            if b.featureList ≠ binRep then
              { b with featureList := binRep, seen := false }
            else b
          let rest2 ← inBinRepair fl seeds2 rest counter2
          some (b2 :: rest2) : Option (List BIN)) = some out →
        out.length = rest.length + 1 ∧
        (fl.Nodup → ∀ b2 ∈ out, (b2 : BIN).featureList.Nodup) ∧
        ((∀ bb ∈ b :: rest, (bb : BIN).featureList ≠ []) →
          ∀ b2 ∈ out, (b2 : BIN).featureList ≠ []) := by
      intro binRep counter2 hsub hnd hne rest2unused hdo
      rcases hrec : inBinRepair fl seeds2 rest counter2 with _ | rest2
      · rw [hrec] at hdo
        simp at hdo
      · rw [hrec] at hdo
        simp only [Option.bind_eq_bind', Option.some_bind, Option.some_inj] at hdo
        obtain ⟨ihlen, ihnd, ihne⟩ := ih counter2 rest2 hrec
        have hb2feat : (if b.featureList ≠ binRep then
            { b with featureList := binRep, seen := false } else b).featureList = binRep := by
          by_cases hch : b.featureList ≠ binRep
          · rw [if_pos hch]
          · rw [if_neg hch]
            exact not_not.mp (by simpa using hch)
        refine ⟨?_, ?_, ?_⟩
        · rw [← hdo]
          simp [ihlen]
        · intro hfl b2 hb2
          rw [← hdo] at hb2
          rcases List.mem_cons.mp hb2 with rfl | hb2
          · rw [hb2feat]
            exact hnd hfl
          · exact ihnd hfl b2 hb2
        · intro hall b2 hb2
          rw [← hdo] at hb2
          rcases List.mem_cons.mp hb2 with rfl | hb2
          · rw [hb2feat]
            exact hne (hall b (List.mem_cons_self _ _))
          · exact ihne (fun bb hbb => hall bb (List.mem_cons_of_mem _ hbb)) b2 hb2
    by_cases hbr : b.featureList.length - (pyUnique b.featureList).length <
        (fl.filter (fun f => f ∉ b.featureList)).length
    · rw [if_pos hbr] at hres
      rcases hsmp : pySample (fl.filter (fun f => f ∉ b.featureList))
          (b.featureList.length - (pyUnique b.featureList).length)
          (pySeed (seeds2.getD counter 0)) with _ | ⟨reps, rr⟩
      · rw [hsmp] at hres
        simp at hres
      · rw [hsmp] at hres
        simp only [Option.bind_eq_bind', Option.some_bind] at hres
        have hout := hmain (pyUnique b.featureList ++ reps) (counter + 1)
          (by
            intro x hx
            rcases List.mem_append.mp hx with hx | hx
            · exact Or.inl hx
            · exact Or.inr (pySample_subset hsmp x hx))
          (by
            intro hfl
            rw [List.nodup_append]
            refine ⟨pyUnique_nodup _, pySample_nodup hsmp (hfl.filter _), ?_⟩
            intro x hx hx2
            have hxb : x ∈ b.featureList := (pyUnique_mem _ _).mp hx
            have := pySample_subset hsmp x hx2
            have := List.mem_filter.mp this
            simp only [decide_not, Bool.not_eq_true', decide_eq_false_iff_not] at this
            exact this.2 hxb)
          (by
            intro hbne hcon
            have := pyUnique_ne_nil hbne
            exact this (List.append_eq_nil.mp hcon).1)
          [] hres
        simpa using hout
    · rw [if_neg hbr] at hres
      simp only [Option.bind_eq_bind', Option.some_bind] at hres
      have hout := hmain (pyUnique b.featureList ++ fl.filter (fun f => f ∉ b.featureList))
        counter
        (by
          intro x hx
          rcases List.mem_append.mp hx with hx | hx
          · exact Or.inl hx
          · exact Or.inr hx)
        (by
          intro hfl
          rw [List.nodup_append]
          refine ⟨pyUnique_nodup _, hfl.filter _, ?_⟩
          intro x hx hx2
          have hxb : x ∈ b.featureList := (pyUnique_mem _ _).mp hx
          have := List.mem_filter.mp hx2
          simp only [decide_not, Bool.not_eq_true', decide_eq_false_iff_not] at this
          exact this.2 hxb)
        (by
          intro hbne hcon
          have := pyUnique_ne_nil hbne
          exact this (List.append_eq_nil.mp hcon).1)
        [] hres
      simpa using hout

theorem buildBinsDf_spec (fm : DataFrame) (label duration : String) :
    ∀ (bins : List BIN) (count : ℕ) (cols : List (String × List ℚ))
      (pop : List (String × BIN)),
      buildBinsDf fm label duration bins count = some (cols, pop) →
      pop.length = bins.length ∧
      ∀ kb ∈ pop, ∃ b ∈ bins, (kb : String × BIN).2.featureList = (b : BIN).featureList := by
  intro bins
  induction bins with
  | nil =>
    intro count cols pop hres
    simp only [buildBinsDf, Option.some_inj, Prod.mk.injEq] at hres
    rw [← hres.2]
    exact ⟨rfl, fun kb hkb => absurd hkb (List.not_mem_nil kb)⟩
  | cons b rest ih =>
    intro count cols pop hres
    simp only [buildBinsDf] at hres
    rcases hcol : binSum fm b.featureList with _ | col
    · rw [hcol] at hres; simp at hres
    rw [hcol] at hres
    simp only [Option.bind_eq_bind', Option.some_bind] at hres
    rcases hrec : buildBinsDf fm label duration rest (count + 1) with _ | ⟨cols2, pop2⟩
    · rw [hrec] at hres; simp at hres
    rw [hrec] at hres
    simp only [Option.some_bind, Option.some_inj, Prod.mk.injEq] at hres
    obtain ⟨ihlen, ihfeat⟩ := ih (count + 1) cols2 pop2 hrec
    constructor
    · rw [← hres.2]
      simp [ihlen]
    · intro kb hkb
      rw [← hres.2] at hkb
      rcases List.mem_cons.mp hkb with rfl | hkb
      · exact ⟨b, List.mem_cons_self _ _, rfl⟩
      · obtain ⟨b0, hb0, hfeat⟩ := ihfeat kb hkb
        exact ⟨b0, List.mem_cons_of_mem _ hb0, hfeat⟩

/-- Combined behaviour of Repair: the returned population has exactly as
many bins as the combined list passed in (dropped bins are replaced
one-for-one; nothing resizes toward the configured target), every
returned bin is non-empty, and — when the feature universe list is
duplicate-free — no returned bin repeats a feature. -/
theorem regroup_spec (feature_list : List String) (fm : DataFrame)
    (label duration : String) (fbl : List BIN) (seed : ℕ) (thr : ℤ)
    (df : DataFrame) (pop : List (String × BIN))
    (hres : regroup_feature_matrix feature_list fm label duration fbl seed thr
      = some (df, pop)) :
    pop.length = fbl.length ∧
    (∀ kb ∈ pop, (kb : String × BIN).2.featureList ≠ []) ∧
    (feature_list.Nodup → ∀ kb ∈ pop, (kb : String × BIN).2.featureList.Nodup) := by
  simp only [regroup_feature_matrix] at hres
  set bins_deleted := fbl.filter (fun b => b.featureList.length = 0) with hbd
  set fbl1 := fbl.filter (fun b => ¬ b.featureList.length = 0) with hfbl1
  set dd := dedupBins fbl1 with hdd
  set bin_lengths := (dd.1.filter (fun b => ¬ b.featureList.length = 0)).map
    (fun b => b.featureList.length) with hbls
  by_cases hblz : bin_lengths.length = 0
  · rw [if_pos hblz] at hres
    exact absurd hres (by simp)
  rw [if_neg hblz] at hres
  set replLen := (pyRound (ratMean bin_lengths)).toNat with hrl
  rcases hsd : npRandInts (feature_list.length * feature_list.length)
      ((bins_deleted.length + dd.2) * 2) (npSeed seed) with _ | ⟨random_seeds, np1⟩
  · rw [hsd] at hres
    exact absurd hres (by simp)
  rw [hsd] at hres
  simp only [Option.bind_eq_bind', Option.some_bind] at hres
  rcases hrep : replacementLoop feature_list replLen thr random_seeds
      (bins_deleted.length + dd.2) (bins_deleted.length + dd.2) 0 dd.1 np1
      with _ | ⟨fbl2, np2⟩
  · rw [hrep] at hres
    exact absurd hres (by simp)
  rw [hrep] at hres
  simp only [Option.some_bind] at hres
  rcases hsd2 : npRandInts (feature_list.length * feature_list.length)
      (2 * fbl2.length) np2 with _ | ⟨seeds2, np3⟩
  · rw [hsd2] at hres
    exact absurd hres (by simp)
  rw [hsd2] at hres
  simp only [Option.some_bind] at hres
  rcases hibr : inBinRepair feature_list seeds2 fbl2 0 with _ | fbl3
  · rw [hibr] at hres
    exact absurd hres (by simp)
  rw [hibr] at hres
  simp only [Option.some_bind] at hres
  rcases hbld : buildBinsDf fm label duration fbl3 0 with _ | ⟨binCols, pop2⟩
  · rw [hbld] at hres
    exact absurd hres (by simp)
  rw [hbld] at hres
  simp only [Option.some_bind] at hres
  rcases hlc : getCol fm label with _ | lcol
  · rw [hlc] at hres
    exact absurd hres (by simp)
  rw [hlc] at hres
  simp only [Option.some_bind] at hres
  rcases hdc : getCol fm duration with _ | dcol
  · rw [hdc] at hres
    exact absurd hres (by simp)
  rw [hdc] at hres
  simp only [Option.some_bind, Option.some_inj, Prod.mk.injEq] at hres
  have hpop : pop2 = pop := hres.2
  -- survivors of the empty-bin filter and deduplication are non-empty
  have hsurv : ∀ b ∈ dd.1, (b : BIN).featureList ≠ [] := by
    intro b hb
    have hmem : b ∈ fbl1 := dedupBins_sublist fbl1 b hb
    have := List.mem_filter.mp hmem
    simp only [decide_not, Bool.not_eq_true', decide_eq_false_iff_not] at this
    intro hcon
    exact this.2 (by rw [hcon]; rfl)
  -- the replacement length is at least one
  have hrl1 : 1 ≤ replLen := by
    have hone : ∀ x ∈ bin_lengths, 1 ≤ x := by
      intro x hx
      rw [hbls] at hx
      obtain ⟨b, hb, hxeq⟩ := List.mem_map.mp hx
      have := List.mem_filter.mp hb
      simp only [decide_not, Bool.not_eq_true', decide_eq_false_iff_not] at this
      omega
    have hm := one_le_ratMean hblz hone
    have hr := pyRound_one_le hm
    rw [hrl]
    omega
  obtain ⟨hlen2, hne2⟩ := replacementLoop_spec feature_list replLen thr random_seeds
    (bins_deleted.length + dd.2) (bins_deleted.length + dd.2) 0 dd.1 np1 fbl2 np2 hrep
  have hne2 := hne2 hsurv hrl1
  obtain ⟨hlen3, hnd3, hne3⟩ := inBinRepair_spec feature_list seeds2 fbl2 0 fbl3 hibr
  have hne3 := hne3 hne2
  obtain ⟨hlen4, hfeat4⟩ := buildBinsDf_spec fm label duration fbl3 0 binCols pop2 hbld
  have hddlen : dd.1.length + dd.2 = fbl1.length := by
    rw [hdd]
    exact dedupBins_length fbl1
  have hpart : bins_deleted.length + fbl1.length = fbl.length := by
    rw [hbd, hfbl1]
    exact length_filter_add_length_filter_not fbl (fun b => b.featureList.length = 0)
  refine ⟨?_, ?_, ?_⟩
  · rw [← hpop, hlen4, hlen3, hlen2]
    omega
  · intro kb hkb
    rw [← hpop] at hkb
    obtain ⟨b, hb, hfeq⟩ := hfeat4 kb hkb
    rw [hfeq]
    exact hne3 b hb
  · intro hfl kb hkb
    rw [← hpop] at hkb
    obtain ⟨b, hb, hfeq⟩ := hfeat4 kb hkb
    rw [hfeq]
    exact hnd3 hfl b hb

/-- Claim C1, amended: Repair does not resize the population toward the
configured target.  `regroup_feature_matrix` returns a population of
exactly the size of the combined list it is given (empty and duplicate
bins are replaced one-for-one); the combined list built by elitism plus
Regular offspring holds `round(N*e) + 2*int(N*(1-e)/2)` bins, which can
fall short of the target `N` (as at N = 7, e = 1/5), and Repair then
returns that smaller population unchanged in size. -/
theorem claim_C1_amended (feature_list : List String) (fm : DataFrame)
    (label duration : String) (fbl : List BIN) (seed : ℕ) (thr : ℤ)
    (df : DataFrame) (pop : List (String × BIN))
    (hres : regroup_feature_matrix feature_list fm label duration fbl seed thr
      = some (df, pop)) :
    pop.length = fbl.length :=
  (regroup_spec feature_list fm label duration fbl seed thr df pop hres).1

/-- Concrete combined list for claim C1's amended-theorem witness: three
bins, one a duplicate, over the 7-feature universe. -/
def combC1w : List BIN := [BIN.ofList ["f1"] 0, BIN.ofList ["f1"] 0, BIN.ofList ["f2"] 0]

/-- Witness for claim C1's amended theorem at a concrete repair run. -/
theorem claim_C1_amended_witness :
    (regroup_feature_matrix fl7 fmC1 "L" "D" combC1w 2002 0).map
      (fun r => r.2.length) = some combC1w.length := by
  rcases hres : regroup_feature_matrix fl7 fmC1 "L" "D" combC1w 2002 0
      with _ | ⟨df, pop⟩
  · exact absurd hres (by decide)
  · simp only [Option.map_some']
    exact congrArg some (claim_C1_amended fl7 fmC1 "L" "D" combC1w 2002 0 df pop hres)

/-! ## Claim C4 -/

/-- Concrete feature matrix over the two-feature universe for claim C4. -/
def fmC4 : DataFrame := ⟨1, [("a", [1]), ("b", [1]), ("L", [1]), ("D", [5])]⟩

/-- Combined bin list for claim C4's counterexample: one bin with an
in-bin repeat and one ordinary bin, none empty. -/
def binsC4 : List BIN := [BIN.ofList ["a", "a"] 0, BIN.ofList ["a", "b"] 0]

/-- Claim C4, counterexample: Repair can return two bins with identical
order-independent membership.  Feeding `[[a,a], [a,b]]` (at least one —
in fact both — non-empty) over the universe `[a,b]` into
`regroup_feature_matrix`, the in-bin dedup of `[a,a]` removes one `a`
and the backfill inserts `b`, recreating `[a,b]`: the returned population
is two bins both with membership `{a,b}`. -/
theorem claim_C4_counterexample :
    (regroup_feature_matrix ["a", "b"] fmC4 "L" "D" binsC4 42 0).map
      (fun r => r.2.map (fun kb => kb.2.featureList)) = some [["a", "b"], ["a", "b"]] ∧
    sameMembership ["a", "b"] ["a", "b"] = true ∧
    BIN.ofList ["a", "a"] 0 ∈ binsC4 ∧ (BIN.ofList ["a", "a"] 0).featureList ≠ [] := by
  refine ⟨by decide, by decide, by decide, by decide⟩

/-- Claim C4, amended: for every combined bin list fed into Repair that
contains at least one non-empty bin, and provided the feature-universe
list passed in is duplicate-free, the returned population contains no
empty Bin and no Bin with a repeated feature; two Bins may however end
with identical order-independent membership (the in-bin backfill can
recreate a duplicate), so the pairwise-distinct-membership part of the
original claim does not hold. -/
theorem claim_C4_amended (feature_list : List String) (fm : DataFrame)
    (label duration : String) (fbl : List BIN) (seed : ℕ) (thr : ℤ)
    (df : DataFrame) (pop : List (String × BIN))
    (hfl : feature_list.Nodup)
    (hne : ∃ b ∈ fbl, (b : BIN).featureList ≠ [])
    (hres : regroup_feature_matrix feature_list fm label duration fbl seed thr
      = some (df, pop)) :
    (∀ kb ∈ pop, (kb : String × BIN).2.featureList ≠ []) ∧
    (∀ kb ∈ pop, (kb : String × BIN).2.featureList.Nodup) := by
  have h := regroup_spec feature_list fm label duration fbl seed thr df pop hres
  exact ⟨h.2.1, h.2.2 hfl⟩

/-- Witness for claim C4's amended theorem at the concrete repair run of
`binsC4`. -/
theorem claim_C4_amended_witness :
    ∃ df pop,
      regroup_feature_matrix ["a", "b"] fmC4 "L" "D" binsC4 42 0 = some (df, pop) ∧
      (∀ kb ∈ pop, (kb : String × BIN).2.featureList ≠ []) ∧
      (∀ kb ∈ pop, (kb : String × BIN).2.featureList.Nodup) := by
  rcases hres : regroup_feature_matrix ["a", "b"] fmC4 "L" "D" binsC4 42 0
      with _ | ⟨df, pop⟩
  · exact absurd hres (by decide)
  · have h := claim_C4_amended ["a", "b"] fmC4 "L" "D" binsC4 42 0 df pop
      (by decide) ⟨BIN.ofList ["a", "a"] 0, by decide, by decide⟩ hres
    exact ⟨df, pop, rfl, h.1, h.2⟩

end Fibers2
